import Mathlib

/-
Verification development for the BSOR serialisation library
(`electrumsv_bsor/core.py`).

The library encodes Python dataclass instances into Bitcoin-script style
token streams and decodes them back, driven by a per-structure schema
(`DataclassDefinition`).  The low-level token primitives come from the
external `bitcoinx` package (`push_int`, `push_item`,
`Script.ops_and_items`, `item_to_int`), which the specification places out
of scope ("the low-level token-stream primitive" is an external
collaborator).  We therefore model the stream at the token level: a token
is the `(opcode, item)` pair that `Script.ops_and_items` yields for one
minimally-encoded push, and the writers (`push_int` / `push_item`) produce
such tokens directly.  Concatenating the pushed bytes and re-parsing with
`ops_and_items` recovers exactly the written `(opcode, item)` pairs, so
this abstraction is faithful for streams produced by the encoder, and the
decoder of `core.py` only ever inspects the opcode (for list presence
prefixes, `OP_0` = 0 and `OP_1` = 81) and the item bytes.

Modelling conventions used throughout:
* byte strings are `List Nat` (each entry one byte);
* Python `int` is `Int`, encoded with bitcoinx's minimal signed-magnitude
  little-endian item format;
* `float` values are represented by their packed little-endian IEEE-754
  byte vectors (4 bytes for `struct.pack("<f", ...)`, 8 for `"<d"`), so
  `struct.pack`/`struct.unpack` become the identity on correctly sized
  vectors, which is exact for post-decode ("canonical") values;
* Python `str` values are represented by their UTF-8 byte sequences, so
  `.encode("utf-8")` / `.decode("utf-8")` are the identity;
* custom-scalar (class reference) domain values are represented by the
  byte payload their codec exchanges with the wire
  (`Value.custom bytes`); the user-supplied decode / encode-factory
  callables are external to this repository and are modelled as the
  canonical pair that passes the payload through unchanged;
* a dataclass instance is an association list from field names to values
  in declaration order (`Value.obj`); `getattr`/`hasattr` become lookup,
  and constructing `class_reference(**kwargs)` requires every declared
  field name to be present (the test dataclasses declare no defaults).
-/

/-! ## Byte items: bitcoinx minimal signed-magnitude integers -/

/-- Little-endian base-256 digits of `n`, least significant first, with no
trailing zero byte (`0` maps to `[]`).  The first argument is fuel; `n`
itself is always sufficient. -/
def natToLEAux : Nat → Nat → List Nat
  | 0, _ => []
  | fuel + 1, n => if n = 0 then [] else n % 256 :: natToLEAux fuel (n / 256)

/-- Minimal little-endian byte representation of a natural number. -/
def natToLE (n : Nat) : List Nat :=
  natToLEAux n n

/-- Value of a little-endian byte list. -/
def leToNat (l : List Nat) : Nat :=
  l.foldr (fun b acc => b + 256 * acc) 0

theorem leToNat_nil : leToNat [] = 0 := rfl

theorem leToNat_cons (b : Nat) (l : List Nat) :
    leToNat (b :: l) = b + 256 * leToNat l := rfl

theorem leToNat_append_single (l : List Nat) (b : Nat) :
    leToNat (l ++ [b]) = leToNat l + b * 256 ^ l.length := by
  induction l with
  | nil => simp [leToNat]
  | cons a l ih =>
      simp only [List.cons_append, leToNat_cons, ih, List.length_cons]
      ring

theorem leToNat_natToLEAux (fuel n : Nat) (h : n ≤ fuel) :
    leToNat (natToLEAux fuel n) = n := by
  induction fuel generalizing n with
  | zero =>
      interval_cases n
      rfl
  | succ fuel ih =>
      by_cases h0 : n = 0
      · simp [natToLEAux, h0, leToNat]
      · have hdiv : n / 256 ≤ fuel := by
          have : n / 256 < n := Nat.div_lt_self (Nat.pos_of_ne_zero h0) (by omega)
          omega
        simp only [natToLEAux, h0, if_false, leToNat_cons, ih _ hdiv]
        omega

theorem leToNat_natToLE (n : Nat) : leToNat (natToLE n) = n :=
  leToNat_natToLEAux n n le_rfl

theorem natToLE_zero : natToLE 0 = [] := rfl

theorem natToLE_ne_nil (n : Nat) (h : n ≠ 0) : natToLE n ≠ [] := by
  cases n with
  | zero => exact absurd rfl h
  | succ m => simp [natToLE, natToLEAux]

/-- `bitcoinx.item_to_int`: value of a stack item interpreted as a
signed-magnitude little-endian integer (empty item is `0`; a set high bit
of the final byte marks a negative number). -/
def itemToInt (item : List Nat) : Int :=
  match item.getLast? with
  | none => 0
  | some last =>
      if 128 ≤ last then
        -(leToNat (item.dropLast ++ [last - 128]) : Int)
      else
        (leToNat item : Int)

/-- `bitcoinx.int_to_item`: minimal signed-magnitude little-endian
encoding of an integer. -/
def intToItem (v : Int) : List Nat :=
  if v = 0 then []
  else if 0 < v then
    if 128 ≤ (natToLE v.natAbs).getLastD 0 then natToLE v.natAbs ++ [0]
    else natToLE v.natAbs
  else
    if 128 ≤ (natToLE v.natAbs).getLastD 0 then natToLE v.natAbs ++ [128]
    else (natToLE v.natAbs).dropLast ++ [(natToLE v.natAbs).getLastD 0 + 128]

theorem itemToInt_nil : itemToInt [] = 0 := rfl

theorem itemToInt_concat (l : List Nat) (b : Nat) :
    itemToInt (l ++ [b]) =
      if 128 ≤ b then -(leToNat (l ++ [b - 128]) : Int)
      else (leToNat (l ++ [b]) : Int) := by
  have h1 : (l ++ [b]).getLast? = some b := by simp
  have h2 : (l ++ [b]).dropLast = l := by simp
  simp only [itemToInt, h1, h2]

theorem itemToInt_intToItem (v : Int) : itemToInt (intToItem v) = v := by
  by_cases h0 : v = 0
  · rw [h0]; decide
  · have hne : natToLE v.natAbs ≠ [] := by
      refine natToLE_ne_nil _ ?_
      simpa [Int.natAbs_eq_zero] using h0
    obtain ⟨l, last, hsplit⟩ : ∃ l last, natToLE v.natAbs = l ++ [last] := by
      rcases List.eq_nil_or_concat (natToLE v.natAbs) with h | ⟨l, last, h⟩
      · exact absurd h hne
      · exact ⟨l, last, by simpa using h⟩
    have hlastD : (natToLE v.natAbs).getLastD 0 = last := by
      rw [hsplit]
      simp [List.getLastD_eq_getLast?]
    have hval : leToNat (l ++ [last]) = v.natAbs := by
      rw [← hsplit]; exact leToNat_natToLE _
    by_cases hpos : 0 < v
    · have habs : ((v.natAbs : Int)) = v := by omega
      by_cases hbig : 128 ≤ last
      · -- positive, high bit set: append a zero byte
        have hitem : intToItem v = (l ++ [last]) ++ [0] := by
          rw [intToItem, if_neg h0, if_pos hpos, hlastD, if_pos hbig, hsplit]
        rw [hitem, itemToInt_concat, if_neg (by omega : ¬ 128 ≤ 0)]
        rw [leToNat_append_single]
        push_cast
        omega
      · -- positive, high bit clear: item is the magnitude itself
        have hitem : intToItem v = l ++ [last] := by
          rw [intToItem, if_neg h0, if_pos hpos, hlastD, if_neg hbig, hsplit]
        rw [hitem, itemToInt_concat, if_neg hbig, hval, habs]
    · have habs : ((v.natAbs : Int)) = -v := by omega
      by_cases hbig : 128 ≤ last
      · -- negative, high bit set: append the sign byte 0x80
        have hitem : intToItem v = (l ++ [last]) ++ [128] := by
          rw [intToItem, if_neg h0, if_neg hpos, hlastD, if_pos hbig, hsplit]
        rw [hitem, itemToInt_concat, if_pos (le_refl 128)]
        have h128 : (128 : Nat) - 128 = 0 := by omega
        rw [h128, leToNat_append_single]
        push_cast
        omega
      · -- negative, high bit clear: fold the sign into the final byte
        have hitem : intToItem v = l ++ [last + 128] := by
          rw [intToItem, if_neg h0, if_neg hpos, hlastD, if_neg hbig, hsplit]
          simp
        rw [hitem, itemToInt_concat, if_pos (by omega : 128 ≤ last + 128)]
        have hsub : last + 128 - 128 = last := by omega
        rw [hsub, hval, habs]
        omega

/-- `item_to_int` as applied by `core.py` to the item slot of a token;
`ops_and_items` yields `None` for non-push opcodes and `item_to_int`
treats a falsy argument as zero (`if not item: return 0`). -/
def itemToIntO : Option (List Nat) → Int
  | none => 0
  | some b => itemToInt b

/-! ## Tokens: the `(opcode, item)` pairs yielded by `ops_and_items` -/

/-- One parsed script token as seen by the decoder: the opcode byte and
the pushed item (`none` for non-push opcodes). -/
structure Token where
  opcode : Nat
  item : Option (List Nat)
deriving Repr, DecidableEq

/-- Opcode of a minimal data push of `len` payload bytes that is not one
of the single-opcode special forms (`OP_0`, `OP_1`..`OP_16`,
`OP_1NEGATE`): direct-length opcodes up to 75, then `OP_PUSHDATA1/2/4`. -/
def pushOpcodeOf (len : Nat) : Nat :=
  if len ≤ 75 then len
  else if len < 256 then 76
  else if len < 65536 then 77
  else 78

/-- The token produced by `bitcoinx.push_item` once re-parsed by
`ops_and_items`: empty item becomes `OP_0` (opcode 0), the single bytes
1..16 become `OP_1`..`OP_16` (opcodes 81..96), `0x81` becomes
`OP_1NEGATE` (79), anything else a plain minimal push; in every case
`ops_and_items` recovers the original item bytes. -/
def mkPushItem (b : List Nat) : Token :=
  match b with
  | [] => ⟨0, some []⟩
  | [v] =>
      if 1 ≤ v ∧ v ≤ 16 then ⟨80 + v, some [v]⟩
      else if v = 129 then ⟨79, some [v]⟩
      else ⟨1, some [v]⟩
  | _ => ⟨pushOpcodeOf b.length, some b⟩

/-- The token produced by `bitcoinx.push_int`. -/
def pushInt (v : Int) : Token :=
  mkPushItem (intToItem v)

theorem mkPushItem_item (b : List Nat) : (mkPushItem b).item = some b := by
  match b with
  | [] => rfl
  | [v] =>
      simp only [mkPushItem]
      split <;> try rfl
      split <;> rfl
  | x :: y :: rest => rfl

theorem pushInt_item (v : Int) : (pushInt v).item = some (intToItem v) :=
  mkPushItem_item _

theorem itemToIntO_pushInt (v : Int) : itemToIntO (pushInt v).item = v := by
  rw [pushInt_item]
  simpa [itemToIntO] using itemToInt_intToItem v

theorem pushInt_zero : pushInt 0 = ⟨0, some []⟩ := by decide

theorem pushInt_one : pushInt 1 = ⟨81, some [1]⟩ := by decide

/-! ## Data model: field types, schemas, values

`FieldType` mirrors the `FieldType` enum of `core.py` (INTEGER=1, FLOAT=2,
DOUBLE=3, LIST=4, STRING=5, BYTES=6, OBJECT=7).  `Schema` gathers, per
field, exactly the information the `DataclassDefinition` methods derive on
demand from the dataclass annotations: the `FieldTypeMetadata` triple
(`field_type`, `is_class_reference`, `stores_pointers`), plus
`get_list_constraint` (item metadata and optional `bsor_length`) for LIST
fields and `get_definition` (the nested field list) for OBJECT fields.
`Schema.custom` covers class-reference fields whose wire-level type is not
OBJECT (e.g. `PublicKey` bound as BYTES); class references bound as OBJECT
are `Schema.obj`. -/

inductive FieldType where
  | INTEGER
  | FLOAT
  | DOUBLE
  | LIST
  | STRING
  | BYTES
  | OBJECT
deriving Repr, DecidableEq

/-- Per-field schema, the Boolean argument being `stores_pointers`
(nullability, a trailing `| None` in the annotation). -/
inductive Schema where
  | integer : Bool → Schema
  | float32 : Bool → Schema
  | float64 : Bool → Schema
  | string : Bool → Schema
  | bytes : Bool → Schema
  | custom : FieldType → Bool → Schema
  | list : Schema → Option Nat → Bool → Schema
  | obj : List (String × Nat × Schema) → Bool → Schema
deriving Repr

/-- A named field of a definition: `(field name, bsor_id, schema)`,
in dataclass declaration order. -/
abbrev FieldDef := String × Nat × Schema

def fname (f : FieldDef) : String := f.1

def ffid (f : FieldDef) : Nat := f.2.1

def fschema (f : FieldDef) : Schema := f.2.2

def Schema.nullable : Schema → Bool
  | .integer n => n
  | .float32 n => n
  | .float64 n => n
  | .string n => n
  | .bytes n => n
  | .custom _ n => n
  | .list _ _ n => n
  | .obj _ n => n

/-- The `field_type` component of the field's `FieldTypeMetadata`. -/
def Schema.wireType : Schema → FieldType
  | .integer _ => .INTEGER
  | .float32 _ => .FLOAT
  | .float64 _ => .DOUBLE
  | .string _ => .STRING
  | .bytes _ => .BYTES
  | .custom wt _ => wt
  | .list _ _ _ => .LIST
  | .obj _ _ => .OBJECT

/-- Runtime values, mirroring the Python values the codec handles.
`f32`/`f64` carry the packed little-endian IEEE-754 bytes, `str` the UTF-8
bytes, `custom` the byte payload exchanged with the custom codec, `obj` a
dataclass instance as a name-to-value list in declaration order (possibly
missing names, modelling instances lacking attributes), `null` is Python
`None`. -/
inductive Value where
  | int : Int → Value
  | f32 : List Nat → Value
  | f64 : List Nat → Value
  | str : List Nat → Value
  | bytes : List Nat → Value
  | custom : List Nat → Value
  | list : List Value → Value
  | obj : List (String × Value) → Value
  | null : Value
deriving Repr

def Value.isNull : Value → Bool
  | .null => true
  | _ => false

/-- The `TYPE_DEFAULTS` table of `core.py` (STRING → "", BYTES → b"",
INTEGER → 0); `none` for types without an entry. -/
def typeDefault : FieldType → Option Value
  | .STRING => some (.str [])
  | .BYTES => some (.bytes [])
  | .INTEGER => some (.int 0)
  | _ => none

/-- Python `field_value == TYPE_DEFAULTS[field_type]` for the three
defaultable wire types; comparisons of differently-typed values (e.g. a
custom-codec instance against `b""`, or `None` against `0`) are `False`
in Python and `false` here. -/
def valueIsDefault : FieldType → Value → Bool
  | .INTEGER, .int v => v == 0
  | .STRING, .str b => b.isEmpty
  | .BYTES, .bytes b => b.isEmpty
  | _, _ => false

/-- Assoc-list lookup by field name (first match), used both for
`getattr` on instances and for the decoder's `kwargs` dictionary. -/
def lookupKw : List (String × Value) → String → Option Value
  | [], _ => none
  | (k, v) :: rest, n => if k == n then some v else lookupKw rest n

/-- `getattr(object_value, field_name)` with `hasattr` folded in: only an
instance (`Value.obj`) has attributes; `none` means `hasattr` is false. -/
def getattrV : Value → String → Option Value
  | .obj kvs, n => lookupKw kvs n
  | _, _ => none

/-- `kwargs[field_name] = field_value` on a Python dict: replace in place
if the key exists, else append. -/
def insertKw : List (String × Value) → String → Value → List (String × Value)
  | [], n, v => [(n, v)]
  | (k, w) :: rest, n, v =>
      if k == n then (k, v) :: rest else (k, w) :: insertKw rest n v

/-- Field lookup by identifier (`get_field` / `get_field_entry`): first
declared field whose `bsor_id` equals the integer read from the wire. -/
def findFieldI : List FieldDef → Int → Option FieldDef
  | [], _ => none
  | f :: rest, fid =>
      if (ffid f : Int) = fid then some f else findFieldI rest fid

/-- The field-elision test of `_write_structure`: only types present in
`TYPE_DEFAULTS` (INTEGER, STRING, BYTES) are ever skipped — a nullable
such field when its value is `None`, a non-nullable one when its value
equals the zero default. -/
def shouldSkip (s : Schema) (v : Value) : Bool :=
  match typeDefault s.wireType with
  | none => false
  | some _ =>
      if s.nullable then v.isNull
      else valueIsDefault s.wireType v

/-- A declared field survives `_write_structure`'s filter: the instance
has the attribute and the value is not elided. -/
def keepField (v : Value) (f : FieldDef) : Bool :=
  match getattrV v (fname f) with
  | none => false
  | some fv => ! shouldSkip (fschema f) fv

/-! ## Errors

Python exceptions raised during a decode call, by site:
`endOfStream` models `StopIteration` from the token generator,
`unknownField` the `ValueError` of `get_field_entry`,
`invalidFloatLength` the "Invalid float length" `ValueError`,
`invalidString` the "Invalid string" `ValueError`,
`invalidPointerPrefix` the "List of pointers contains a non-zero/non-one
entry prefix" `ValueError`, `missingArgument` the `TypeError` from
`class_reference(**kwargs)` when a declared field is absent, and
`typeError` any other `TypeError` (e.g. a custom decode callable applied
to `None`). -/
inductive DecErr where
  | endOfStream
  | typeError
  | unknownField
  | invalidFloatLength
  | invalidString
  | invalidPointerPrefix
  | missingArgument
deriving Repr, DecidableEq

/-- Exceptions raised during an encode call: `typeError` models the
`TypeError`/`struct.error` from handing a value of the wrong shape to the
writers, `notImplemented` the `NotImplementedError` for class-reference
fields whose wire type is not BYTES. -/
inductive EncErr where
  | typeError
  | notImplemented
deriving Repr, DecidableEq

theorem sizeOf_fschema_lt_of_findFieldI {fields : List FieldDef} {fid : Int}
    {f : FieldDef} (h : findFieldI fields fid = some f) :
    sizeOf (fschema f) < sizeOf fields := by
  induction fields with
  | nil => simp [findFieldI] at h
  | cons g rest ih =>
      obtain ⟨n, i, s⟩ := g
      rw [findFieldI] at h
      by_cases hg : (ffid (n, i, s) : Int) = fid
      · rw [if_pos hg] at h
        have hfs : fschema f = s := by
          injection h with h2
          rw [← h2]
          rfl
        rw [hfs]
        simp only [List.cons.sizeOf_spec, Prod.mk.sizeOf_spec]
        omega
      · rw [if_neg hg] at h
        have := ih h
        simp only [List.cons.sizeOf_spec]
        omega

/-! ## Decoder

Shallow embedding of `_read_structure` / `_read_field` / `_read_type` and
of `loads`.  `read_field_loop` is the `for _field_index in range(...)`
loop of `_read_structure` (reading a field id, resolving it with
`get_field_entry` — the same first-match search by id that `get_field`
then repeats for the name — decoding the value, and storing it in
`kwargs`); `read_items` is the item loop of the LIST branch of
`_read_type`.  List presence prefixes compare the token opcode against
`Ops.OP_0` (0) and `Ops.OP_1` (81). -/

/-- The default back-fill loop of `_read_structure`: every declared field
whose name is not yet in `kwargs` gets `None` if it stores pointers, else
its `TYPE_DEFAULTS` entry if one exists, else nothing. -/
def backfill : List FieldDef → List (String × Value) → List (String × Value)
  | [], kwargs => kwargs
  | f :: rest, kwargs =>
      if (lookupKw kwargs (fname f)).isSome then backfill rest kwargs
      else if (fschema f).nullable then
        backfill rest (kwargs ++ [(fname f, .null)])
      else
        match typeDefault (fschema f).wireType with
        | some d => backfill rest (kwargs ++ [(fname f, d)])
        | none => backfill rest kwargs

/-- `class_reference(**kwargs)`: building the instance requires a value
for every declared field (the modelled dataclasses declare no field
defaults); the result lists the fields in declaration order. -/
def mkInstance : List FieldDef → List (String × Value) →
    Except DecErr (List (String × Value))
  | [], _ => .ok []
  | f :: rest, kwargs =>
      match lookupKw kwargs (fname f) with
      | none => .error .missingArgument
      | some v =>
          match mkInstance rest kwargs with
          | .ok kvs => .ok ((fname f, v) :: kvs)
          | .error e => .error e

mutual

/-- `_read_type`: decode one field value against its schema. -/
def read_type (s : Schema) (toks : List Token) :
    Except DecErr (Value × List Token) :=
  match s with
  | .custom _ _ =>
      -- class reference with non-OBJECT wire type: one token through the
      -- custom decode callable (modelled as the identity on the payload;
      -- a missing payload hands `None` to the callable, a `TypeError`)
      match toks with
      | [] => .error .endOfStream
      | tok :: rest =>
          match tok.item with
          | some b => .ok (.custom b, rest)
          | none => .error .typeError
  | .integer _ =>
      match toks with
      | [] => .error .endOfStream
      | tok :: rest => .ok (.int (itemToIntO tok.item), rest)
  | .float32 _ =>
      match toks with
      | [] => .error .endOfStream
      | tok :: rest =>
          match tok.item with
          | some b =>
              if b.length = 4 then .ok (.f32 b, rest)
              else .error .invalidFloatLength
          | none => .error .invalidFloatLength
  | .float64 _ =>
      match toks with
      | [] => .error .endOfStream
      | tok :: rest =>
          match tok.item with
          | some b =>
              if b.length = 8 then .ok (.f64 b, rest)
              else .error .invalidFloatLength
          | none => .error .invalidFloatLength
  | .bytes _ =>
      -- `field_value = value_bytes` verbatim; a non-push token leaves the
      -- Python value `None`
      match toks with
      | [] => .error .endOfStream
      | tok :: rest =>
          match tok.item with
          | some b => .ok (.bytes b, rest)
          | none => .ok (.null, rest)
  | .string _ =>
      match toks with
      | [] => .error .endOfStream
      | tok :: rest =>
          match tok.item with
          | some b => .ok (.str b, rest)
          | none => .error .invalidString
  | .list item len _ =>
      -- `get_list_constraint` supplies the item schema and `bsor_length`;
      -- without a static length one count token is read first
      match len with
      | some n =>
          match read_items item n toks with
          | .ok (vs, rest) => .ok (.list vs, rest)
          | .error e => .error e
      | none =>
          match toks with
          | [] => .error .endOfStream
          | tok :: rest =>
              match read_items item (itemToIntO tok.item).toNat rest with
              | .ok (vs, rest2) => .ok (.list vs, rest2)
              | .error e => .error e
  | .obj fields _ => read_structure fields toks
termination_by (sizeOf s, 0, 0)

/-- The item loop of `_read_type`'s LIST branch: for nullable items a
presence token is read first (`OP_0` → `None`, `OP_1` → decode the item,
anything else → error). -/
def read_items (item : Schema) (n : Nat) (toks : List Token) :
    Except DecErr (List Value × List Token) :=
  match n with
  | 0 => .ok ([], toks)
  | n + 1 =>
      if item.nullable then
        match toks with
        | [] => .error .endOfStream
        | tok :: rest =>
            if tok.opcode = 0 then
              match read_items item n rest with
              | .ok (vs, r) => .ok (.null :: vs, r)
              | .error e => .error e
            else if tok.opcode ≠ 81 then .error .invalidPointerPrefix
            else
              match read_type item rest with
              | .ok (v, r) =>
                  match read_items item n r with
                  | .ok (vs, r2) => .ok (v :: vs, r2)
                  | .error e => .error e
              | .error e => .error e
      else
        match read_type item toks with
        | .ok (v, r) =>
            match read_items item n r with
            | .ok (vs, r2) => .ok (v :: vs, r2)
            | .error e => .error e
        | .error e => .error e
termination_by (sizeOf item, 1, n)

/-- The field loop of `_read_structure`: read a field-id token, resolve
it (`get_field_entry` raises for an unknown id), decode the value with
`_read_type`, store it under the field's name. -/
def read_field_loop (fields : List FieldDef) (n : Nat) (toks : List Token)
    (kwargs : List (String × Value)) :
    Except DecErr (List (String × Value) × List Token) :=
  match n with
  | 0 => .ok (kwargs, toks)
  | n + 1 =>
      match toks with
      | [] => .error .endOfStream
      | tok :: rest =>
          match hf : findFieldI fields (itemToIntO tok.item) with
          | none => .error .unknownField
          | some f =>
              match read_type (fschema f) rest with
              | .ok (v, rest2) =>
                  read_field_loop fields n rest2 (insertKw kwargs (fname f) v)
              | .error e => .error e
termination_by (sizeOf fields, 1, n)
decreasing_by
  all_goals simp_wf
  all_goals
    first
      | exact Prod.Lex.left _ _ (sizeOf_fschema_lt_of_findFieldI hf)
      | decreasing_tactic

/-- `_read_structure`: read the field-count token, run the field loop,
back-fill defaults, construct the instance. -/
def read_structure (fields : List FieldDef) (toks : List Token) :
    Except DecErr (Value × List Token) :=
  match toks with
  | [] => .error .endOfStream
  | tok :: rest =>
      match read_field_loop fields (itemToIntO tok.item).toNat rest [] with
      | .ok (kwargs, rest2) =>
          match mkInstance fields (backfill fields kwargs) with
          | .ok kvs => .ok (.obj kvs, rest2)
          | .error e => .error e
      | .error e => .error e
termination_by (sizeOf fields, 2, 0)

end

/-- `loads(data, definition, class_reference)`: parse the byte string
into tokens (modelled directly as the token list) and read one structure;
trailing tokens are ignored. -/
def loads (fields : List FieldDef) (toks : List Token) : Except DecErr Value :=
  match read_structure fields toks with
  | .ok (v, _) => .ok v
  | .error e => .error e

/-! ## Encoder

Shallow embedding of `_write_structure` / `_write_field` / `_write_type`
and of `dumps`.  `_write_structure` first builds the list of surviving
fields (attribute present and not elided), writes its length, then writes
`push_int(field_id)` followed by the `_write_type` tokens for each
survivor; `write_field_loop` below emits the same token sequence by
walking the declared fields once and skipping non-survivors, and
`write_structure` prepends the survivor count.  Python raises exceptions
mid-write, abandoning bytes already written to the stream; the `Except`
result here simply drops that partial output. -/

theorem sizeOf_fschema_lt_cons (f : FieldDef) (rest : List FieldDef) :
    sizeOf (fschema f) < sizeOf (f :: rest) := by
  obtain ⟨n, i, s⟩ := f
  simp only [fschema, List.cons.sizeOf_spec, Prod.mk.sizeOf_spec]
  omega

mutual

/-- `_write_type`: encode one field value against its schema. -/
def write_type (s : Schema) (v : Value) : Except EncErr (List Token) :=
  match s with
  | .custom wt _ =>
      -- class reference with non-OBJECT wire type: only a BYTES binding is
      -- implemented (the encode factory, modelled as the identity on the
      -- payload, produces the bytes pushed); anything else raises
      -- `NotImplementedError` before any dispatch on the value
      if wt = .BYTES then
        match v with
        | .custom b => .ok [mkPushItem b]
        | _ => .error .typeError
      else .error .notImplemented
  | .integer _ =>
      match v with
      | .int i => .ok [pushInt i]
      | _ => .error .typeError
  | .float32 _ =>
      -- `struct.pack("<f", value)` then `push_item`; the packed bytes are
      -- the value's representation, a non-float raises
      match v with
      | .f32 b => .ok [mkPushItem b]
      | _ => .error .typeError
  | .float64 _ =>
      match v with
      | .f64 b => .ok [mkPushItem b]
      | _ => .error .typeError
  | .bytes _ =>
      match v with
      | .bytes b => .ok [mkPushItem b]
      | _ => .error .typeError
  | .string _ =>
      match v with
      | .str b => .ok [mkPushItem b]
      | _ => .error .typeError
  | .list item len _ =>
      -- a statically sized list writes no count token; a dynamic one
      -- writes `push_int(len(field_value))` first
      match v with
      | .list vs =>
          match len with
          | some _ => write_items item vs
          | none =>
              match write_items item vs with
              | .ok body => .ok (pushInt vs.length :: body)
              | .error e => .error e
      | _ => .error .typeError
  | .obj fields _ => write_structure fields v
termination_by (sizeOf s, 0, 0)

/-- The item loop of `_write_type`'s LIST branch: nullable items get a
`push_int(0)` for `None` or a `push_int(1)` prefix before their value. -/
def write_items (item : Schema) (vs : List Value) : Except EncErr (List Token) :=
  match vs with
  | [] => .ok []
  | v :: rest =>
      if item.nullable then
        match v with
        | .null =>
            match write_items item rest with
            | .ok body => .ok (pushInt 0 :: body)
            | .error e => .error e
        | _ =>
            match write_type item v with
            | .ok ts =>
                match write_items item rest with
                | .ok body => .ok (pushInt 1 :: (ts ++ body))
                | .error e => .error e
            | .error e => .error e
      else
        match write_type item v with
        | .ok ts =>
            match write_items item rest with
            | .ok body => .ok (ts ++ body)
            | .error e => .error e
        | .error e => .error e
termination_by (sizeOf item, 1, vs.length)

/-- The emission loop of `_write_structure` over the declared fields:
skip fields without the attribute or elided by `shouldSkip`; for each
survivor write the id token then the value tokens. -/
def write_field_loop (fs : List FieldDef) (v : Value) : Except EncErr (List Token) :=
  match fs with
  | [] => .ok []
  | f :: rest =>
      match getattrV v (fname f) with
      | none => write_field_loop rest v
      | some fv =>
          if shouldSkip (fschema f) fv then write_field_loop rest v
          else
            match write_type (fschema f) fv with
            | .ok ts =>
                match write_field_loop rest v with
                | .ok body => .ok (pushInt (ffid f) :: (ts ++ body))
                | .error e => .error e
            | .error e => .error e
termination_by (sizeOf fs, 1, 0)
decreasing_by
  all_goals simp_wf
  all_goals
    first
      | exact Prod.Lex.left _ _ (sizeOf_fschema_lt_cons f rest)
      | decreasing_tactic

/-- `_write_structure`: count of surviving fields, then their tokens. -/
def write_structure (fields : List FieldDef) (v : Value) : Except EncErr (List Token) :=
  match write_field_loop fields v with
  | .ok body => .ok (pushInt ((fields.filter (keepField v)).length) :: body)
  | .error e => .error e
termination_by (sizeOf fields, 2, 0)

end

/-- `dumps(object, structure_metadata)`: build the definition for the
object's class and write one structure to a fresh stream. -/
def dumps (fields : List FieldDef) (v : Value) : Except EncErr (List Token) :=
  write_structure fields v

/-! ## Definition building (`DataclassDefinition.__init__`)

`__init__` walks the declared dataclass fields, asserts a `bsor_id`
metadata entry, resolves the annotation with
`map_type_name_to_field_type`, and collects `(name, FieldEntry)` pairs.
It also inserts every id into an `encountered_identifiers` set, but that
set is never read again — no duplicate-id check exists.  The class
reference table maps a type name to its `(decoder, encoder, field_type)`
binding; only the `field_type` matters to building, the callables being
opaque Python functions. -/

/-- The `FieldTypeMetadata` named tuple of `core.py`. -/
structure FieldTypeMetadata where
  field_type : FieldType
  is_class_reference : Bool
  stores_pointers : Bool
deriving Repr, DecidableEq

/-- Exceptions at definition-build time: `assertionError` models a failed
`assert` (missing `bsor_id`, or a `bsor_type` outside FLOAT/DOUBLE), and
`unknownType` the `Exception("Unknown type ...")` of
`map_type_name_to_field_type`. -/
inductive BuildErr where
  | assertionError
  | unknownType
deriving Repr, DecidableEq

def lookupRef : List (String × FieldType) → String → Option FieldType
  | [], _ => none
  | (k, t) :: rest, n => if k == n then some t else lookupRef rest n

/-- Python `str.endswith`, on the character lists of the strings. -/
def sEndsWith (s p : String) : Bool := p.data.isSuffixOf s.data

/-- Python `str.startswith`, on the character lists of the strings. -/
def sStartsWith (s p : String) : Bool := p.data.isPrefixOf s.data

/-- A dataclass field as `__init__` sees it: name, `metadata["bsor_id"]`
(if present), `metadata.get("bsor_type")`, and the annotation string. -/
structure RawField where
  name : String
  bsor_id : Option Nat
  bsor_type : Option FieldType
  type_name : String
deriving Repr

/-- `map_type_name_to_field_type`: strip a trailing `" | None"` (marking
`stores_pointers`), then resolve `int` / `float` / `list[...]` / `str` /
`bytes` / a class-reference name.  `fieldMeta` is the optional
`dataclasses.Field` argument: `none` when called without it (as
`get_list_constraint` does), in which case a `float` resolves to plain
`FieldTypeMetadata(FLOAT)` with default (`false`) `stores_pointers`. -/
def map_type_name_to_field_type (type_name : String)
    (class_references : List (String × FieldType))
    (fieldMeta : Option (Option FieldType)) : Except BuildErr FieldTypeMetadata :=
  let stores_pointers := sEndsWith type_name " | None"
  let base := if stores_pointers then type_name.dropRight 7 else type_name
  if base == "int" then .ok ⟨.INTEGER, false, stores_pointers⟩
  else if base == "float" then
    match fieldMeta with
    | none => .ok ⟨.FLOAT, false, false⟩
    | some bt =>
        let ft := bt.getD .FLOAT
        if ft = .FLOAT ∨ ft = .DOUBLE then .ok ⟨ft, false, stores_pointers⟩
        else .error .assertionError
  else if sStartsWith base "list[" then .ok ⟨.LIST, false, stores_pointers⟩
  else if base == "str" then .ok ⟨.STRING, false, stores_pointers⟩
  else if base == "bytes" then .ok ⟨.BYTES, false, stores_pointers⟩
  else
    match lookupRef class_references base with
    | some ft => .ok ⟨ft, true, stores_pointers⟩
    | none => .error .unknownType

/-- The field-collection loop of `DataclassDefinition.__init__`.  Note
that ids are only collected, never checked for duplicates. -/
def buildFields (dcFields : List RawField)
    (class_references : List (String × FieldType)) :
    Except BuildErr (List (String × Nat × FieldTypeMetadata)) :=
  match dcFields with
  | [] => .ok []
  | rf :: rest =>
      match rf.bsor_id with
      | none => .error .assertionError
      | some fid =>
          match map_type_name_to_field_type rf.type_name class_references
              (some rf.bsor_type) with
          | .ok meta =>
              match buildFields rest class_references with
              | .ok fs => .ok ((rf.name, fid, meta) :: fs)
              | .error e => .error e
          | .error e => .error e

/-! ## Canonicity and schema well-formedness

`canonicalV s v` says `v` is a well-typed, fully canonical (post-decode
shaped) non-null value for schema `s`: float payloads have the packed
width, fixed-length lists have the declared length, instances list
exactly the declared fields in order.  In list slots (`canonicalItems`) a
null is canonical whenever the item is nullable, since the presence
prefix represents it on the wire; at structure fields
(`fieldCanonical`) a null is canonical only for nullable fields of the
`TYPE_DEFAULTS` wire types (INTEGER, STRING, BYTES) — those are the nulls
the encoder's elision actually reproduces. -/

mutual

def canonicalV (s : Schema) (v : Value) : Bool :=
  match s with
  | .integer _ =>
      match v with
      | .int _ => true
      | _ => false
  | .float32 _ =>
      match v with
      | .f32 b => b.length = 4
      | _ => false
  | .float64 _ =>
      match v with
      | .f64 b => b.length = 8
      | _ => false
  | .string _ =>
      match v with
      | .str _ => true
      | _ => false
  | .bytes _ =>
      match v with
      | .bytes _ => true
      | _ => false
  | .custom wt _ =>
      match v with
      | .custom _ => wt = .BYTES
      | _ => false
  | .list item len _ =>
      match v with
      | .list vs =>
          canonicalItems item vs &&
            (match len with
             | some n => vs.length = n
             | none => true)
      | _ => false
  | .obj fields _ =>
      match v with
      | .obj kvs => canonicalFields fields kvs
      | _ => false
termination_by (sizeOf s, 0, 0)

def canonicalItems (item : Schema) (vs : List Value) : Bool :=
  match vs with
  | [] => true
  | v :: rest =>
      (if v.isNull then item.nullable else canonicalV item v) &&
        canonicalItems item rest
termination_by (sizeOf item, 1, vs.length)

def fieldCanonical (s : Schema) (v : Value) : Bool :=
  if v.isNull then s.nullable && (typeDefault s.wireType).isSome
  else canonicalV s v
termination_by (sizeOf s, 3, 0)

def canonicalFields (fields : List FieldDef) (kvs : List (String × Value)) : Bool :=
  match fields, kvs with
  | [], [] => true
  | f :: fs, (k, v) :: rest =>
      (k == fname f) && fieldCanonical (fschema f) v && canonicalFields fs rest
  | [], _ :: _ => false
  | _ :: _, [] => false
termination_by (sizeOf fields, 2, 0)
decreasing_by
  all_goals simp_wf
  all_goals
    first
      | exact Prod.Lex.left _ _ (sizeOf_fschema_lt_cons f fs)
      | decreasing_tactic

end

def nodupNat : List Nat → Bool
  | [] => true
  | x :: xs => !(xs.contains x) && nodupNat xs

def nodupStr : List String → Bool
  | [] => true
  | x :: xs => !(xs.contains x) && nodupStr xs

mutual

/-- Schema restrictions under which the encoder is total on canonical
values and inverts through the decoder: custom scalars are BYTES-wired,
and every (nested) definition has pairwise distinct field ids and
names. -/
def wfS : Schema → Bool
  | .integer _ => true
  | .float32 _ => true
  | .float64 _ => true
  | .string _ => true
  | .bytes _ => true
  | .custom wt _ => wt = .BYTES
  | .list item _ _ => wfS item
  | .obj fields _ =>
      nodupNat (fields.map ffid) && nodupStr (fields.map fname) &&
        wfFieldList fields
termination_by s => (sizeOf s, 0)

def wfFieldList : List FieldDef → Bool
  | [] => true
  | f :: fs => wfS (fschema f) && wfFieldList fs
termination_by fs => (sizeOf fs, 1)
decreasing_by
  all_goals simp_wf
  all_goals
    first
      | decreasing_tactic
      | (obtain ⟨n2, i2, s2⟩ := f
         simp only [fschema, Prod.mk.sizeOf_spec]
         omega)

end

/-- Well-formedness of a top-level definition. -/
def wfDef (fields : List FieldDef) : Bool :=
  nodupNat (fields.map ffid) && nodupStr (fields.map fname) && wfFieldList fields

/-- The `(name, value)` pairs the decoder's `kwargs` receives when reading
a stream written by `_write_structure` for instance `x`: the surviving
fields with their values, in declaration order. -/
def keptKvs (fs : List FieldDef) (x : Value) : List (String × Value) :=
  match fs with
  | [] => []
  | f :: rest =>
      match getattrV x (fname f) with
      | none => keptKvs rest x
      | some fv =>
          if shouldSkip (fschema f) fv then keptKvs rest x
          else (fname f, fv) :: keptKvs rest x

/-! ## Toolkit lemmas -/

theorem itemToIntO_pushInt_toNat (n : Nat) :
    (itemToIntO (pushInt (n : Int)).item).toNat = n := by
  rw [itemToIntO_pushInt]
  exact Int.toNat_natCast n

theorem pushInt_zero_opcode : (pushInt 0).opcode = 0 := by decide

theorem pushInt_one_opcode : (pushInt 1).opcode = 81 := by decide

theorem lookupKw_append_of_some {kw : List (String × Value)} {n : String}
    {v : Value} (ext : List (String × Value)) (h : lookupKw kw n = some v) :
    lookupKw (kw ++ ext) n = some v := by
  induction kw with
  | nil => simp [lookupKw] at h
  | cons p rest ih =>
      obtain ⟨k, w⟩ := p
      rw [lookupKw] at h
      by_cases hk : k == n
      · rw [if_pos hk] at h
        simpa [lookupKw, hk] using h
      · rw [if_neg (by simpa using hk)] at h
        simpa [lookupKw, hk] using ih h

theorem lookupKw_append_single_of_none {kw : List (String × Value)} {n : String}
    (v : Value) (h : lookupKw kw n = none) :
    lookupKw (kw ++ [(n, v)]) n = some v := by
  induction kw with
  | nil => simp [lookupKw]
  | cons p rest ih =>
      obtain ⟨k, w⟩ := p
      rw [lookupKw] at h
      by_cases hk : k == n
      · rw [if_pos hk] at h
        cases h
      · rw [if_neg (by simpa using hk)] at h
        simpa [lookupKw, hk] using ih h

theorem lookupKw_append_single_ne {kw : List (String × Value)} {n k : String}
    (v : Value) (h : k ≠ n) :
    lookupKw (kw ++ [(k, v)]) n = lookupKw kw n := by
  induction kw with
  | nil => simp [lookupKw, h]
  | cons p rest ih =>
      obtain ⟨k2, w⟩ := p
      by_cases hk : k2 == n
      · simp [lookupKw, hk]
      · simp only [List.cons_append, lookupKw, hk, if_false]
        exact ih

theorem insertKw_of_none {kw : List (String × Value)} {n : String}
    (v : Value) (h : lookupKw kw n = none) :
    insertKw kw n v = kw ++ [(n, v)] := by
  induction kw with
  | nil => simp [insertKw]
  | cons p rest ih =>
      obtain ⟨k, w⟩ := p
      rw [lookupKw] at h
      by_cases hk : k == n
      · rw [if_pos hk] at h
        cases h
      · rw [if_neg (by simpa using hk)] at h
        have h2 := ih h
        simp [insertKw, hk, h2]

/-! Step lemmas for the well-founded recursive codec functions; these
replace direct unfolding wherever a dependent match blocks rewriting. -/

theorem read_field_loop_zero (fields : List FieldDef) (toks : List Token)
    (kwargs : List (String × Value)) :
    read_field_loop fields 0 toks kwargs = .ok (kwargs, toks) := by
  rw [read_field_loop]

theorem read_field_loop_nil (fields : List FieldDef) (n : Nat)
    (kwargs : List (String × Value)) :
    read_field_loop fields (n + 1) [] kwargs = .error .endOfStream := by
  rw [read_field_loop]

theorem read_field_loop_unknown {fields : List FieldDef} {tok : Token}
    (n : Nat) (rest : List Token) (kwargs : List (String × Value))
    (h : findFieldI fields (itemToIntO tok.item) = none) :
    read_field_loop fields (n + 1) (tok :: rest) kwargs = .error .unknownField := by
  conv_lhs => rw [read_field_loop]
  split
  · rfl
  next g heq => rw [h] at heq; cases heq

theorem read_field_loop_found {fields : List FieldDef} {tok : Token}
    {f : FieldDef} (n : Nat) (rest : List Token)
    (kwargs : List (String × Value))
    (h : findFieldI fields (itemToIntO tok.item) = some f) :
    read_field_loop fields (n + 1) (tok :: rest) kwargs =
      match read_type (fschema f) rest with
      | .ok (v, rest2) => read_field_loop fields n rest2 (insertKw kwargs (fname f) v)
      | .error e => .error e := by
  conv_lhs => rw [read_field_loop]
  split
  next heq => rw [h] at heq; cases heq
  next g heq =>
    rw [h] at heq
    injection heq with heq2
    rw [heq2]

theorem read_structure_nil (fields : List FieldDef) :
    read_structure fields [] = .error .endOfStream := by
  rw [read_structure]

theorem read_structure_cons (fields : List FieldDef) (tok : Token)
    (rest : List Token) :
    read_structure fields (tok :: rest) =
      match read_field_loop fields (itemToIntO tok.item).toNat rest [] with
      | .ok (kwargs, rest2) =>
          match mkInstance fields (backfill fields kwargs) with
          | .ok kvs => .ok (.obj kvs, rest2)
          | .error e => .error e
      | .error e => .error e := by
  rw [read_structure]

theorem write_structure_eq (fields : List FieldDef) (v : Value) :
    write_structure fields v =
      match write_field_loop fields v with
      | .ok body => .ok (pushInt ((fields.filter (keepField v)).length) :: body)
      | .error e => .error e := by
  rw [write_structure]

theorem contains_false_iff_str (xs : List String) (x : String) :
    xs.contains x = false ↔ x ∉ xs := by
  induction xs with
  | nil => simp
  | cons y ys ih =>
      simp only [List.contains_cons, Bool.or_eq_false_iff, List.mem_cons, ih,
        beq_eq_false_iff_ne]
      constructor
      · rintro ⟨h1, h2⟩ (rfl | hm)
        · exact h1 rfl
        · exact h2 hm
      · intro h
        exact ⟨fun he => h (Or.inl he), fun hm => h (Or.inr hm)⟩

theorem contains_false_iff_nat (xs : List Nat) (x : Nat) :
    xs.contains x = false ↔ x ∉ xs := by
  induction xs with
  | nil => simp
  | cons y ys ih =>
      simp only [List.contains_cons, Bool.or_eq_false_iff, List.mem_cons, ih,
        beq_eq_false_iff_ne]
      constructor
      · rintro ⟨h1, h2⟩ (rfl | hm)
        · exact h1 rfl
        · exact h2 hm
      · intro h
        exact ⟨fun he => h (Or.inl he), fun hm => h (Or.inr hm)⟩

theorem backfill_exists_ext (fields : List FieldDef)
    (kw : List (String × Value)) :
    ∃ ext, backfill fields kw = kw ++ ext := by
  induction fields generalizing kw with
  | nil => exact ⟨[], by simp [backfill]⟩
  | cons f fs ih =>
      rw [backfill]
      by_cases hp : (lookupKw kw (fname f)).isSome
      · rw [if_pos hp]
        exact ih kw
      · rw [if_neg hp]
        by_cases hn : (fschema f).nullable
        · rw [if_pos hn]
          obtain ⟨ext, hext⟩ := ih (kw ++ [(fname f, Value.null)])
          exact ⟨(fname f, Value.null) :: ext, by simp [hext]⟩
        · rw [if_neg hn]
          match hd : typeDefault (fschema f).wireType with
          | some d =>
              obtain ⟨ext, hext⟩ := ih (kw ++ [(fname f, d)])
              exact ⟨(fname f, d) :: ext, by simp [hext]⟩
          | none => exact ih kw

theorem backfill_pres {fields : List FieldDef} {kw : List (String × Value)}
    {n : String} {v : Value} (h : lookupKw kw n = some v) :
    lookupKw (backfill fields kw) n = some v := by
  obtain ⟨ext, hext⟩ := backfill_exists_ext fields kw
  rw [hext]
  exact lookupKw_append_of_some ext h

theorem backfill_absent {fields : List FieldDef} {kw : List (String × Value)}
    {n : String} (hmem : n ∉ fields.map fname) (h : lookupKw kw n = none) :
    lookupKw (backfill fields kw) n = none := by
  induction fields generalizing kw with
  | nil => simpa [backfill]
  | cons f fs ih =>
      have hne : fname f ≠ n := by
        intro he
        exact hmem (by simp [he.symm])
      have hmem2 : n ∉ fs.map fname := by
        intro hm
        exact hmem (by simp [hm])
      rw [backfill]
      by_cases hp : (lookupKw kw (fname f)).isSome
      · rw [if_pos hp]
        exact ih hmem2 h
      · rw [if_neg hp]
        by_cases hn : (fschema f).nullable
        · rw [if_pos hn]
          refine ih hmem2 ?_
          rw [lookupKw_append_single_ne _ hne, h]
        · rw [if_neg hn]
          match hd : typeDefault (fschema f).wireType with
          | some d =>
              refine ih hmem2 ?_
              rw [lookupKw_append_single_ne _ hne, h]
          | none => exact ih hmem2 h

theorem backfill_miss {fields : List FieldDef} {kw : List (String × Value)}
    {f : FieldDef} (hnodup : nodupStr (fields.map fname) = true)
    (hf : f ∈ fields) (h : lookupKw kw (fname f) = none) :
    lookupKw (backfill fields kw) (fname f) =
      if (fschema f).nullable then some Value.null
      else
        match typeDefault (fschema f).wireType with
        | some d => some d
        | none => none := by
  induction fields generalizing kw with
  | nil => cases hf
  | cons g fs ih =>
      rw [List.map_cons, nodupStr] at hnodup
      rw [Bool.and_eq_true] at hnodup
      obtain ⟨hnotin, hnodup2⟩ := hnodup
      have hnotin2 : fname g ∉ fs.map fname := by
        rw [← contains_false_iff_str]
        simpa using hnotin
      rcases List.mem_cons.mp hf with rfl | htail
      · -- `f` is the head field
        rw [backfill, if_neg (by simp [h])]
        by_cases hn : (fschema f).nullable
        · rw [if_pos hn, if_pos hn]
          exact backfill_pres (lookupKw_append_single_of_none _ h)
        · rw [if_neg hn, if_neg hn]
          match hd : typeDefault (fschema f).wireType with
          | some d => exact backfill_pres (lookupKw_append_single_of_none _ h)
          | none => exact backfill_absent hnotin2 h
      · -- `f` is in the tail; the head's name differs
        have hne : fname g ≠ fname f := by
          intro he
          exact hnotin2 (he ▸ List.mem_map_of_mem fname htail)
        rw [backfill]
        by_cases hp : (lookupKw kw (fname g)).isSome
        · rw [if_pos hp]
          exact ih hnodup2 htail h
        · rw [if_neg hp]
          by_cases hn : (fschema g).nullable
          · rw [if_pos hn]
            refine ih hnodup2 htail ?_
            rw [lookupKw_append_single_ne _ hne, h]
          · rw [if_neg hn]
            match hd : typeDefault (fschema g).wireType with
            | some d =>
                refine ih hnodup2 htail ?_
                rw [lookupKw_append_single_ne _ hne, h]
            | none => exact ih hnodup2 htail h

theorem keptKvs_lookup_absent {fs : List FieldDef} {x : Value} {n : String}
    (h : n ∉ fs.map fname) :
    lookupKw (keptKvs fs x) n = none := by
  induction fs with
  | nil => simp [keptKvs, lookupKw]
  | cons f rest ih =>
      have hne : fname f ≠ n := fun he => h (by simp [he.symm])
      have h2 : n ∉ rest.map fname := fun hm => h (by simp [hm])
      cases hg : getattrV x (fname f) with
      | none => simpa [keptKvs, hg] using ih h2
      | some fv =>
          by_cases hs : shouldSkip (fschema f) fv
          · simpa [keptKvs, hg, hs] using ih h2
          · simp only [keptKvs, hg, hs, Bool.false_eq_true, if_false, lookupKw]
            rw [if_neg (by simpa using hne)]
            exact ih h2

theorem keptKvs_lookup_kept {fs : List FieldDef} {x : Value} {f : FieldDef}
    {fv : Value} (hnodup : nodupStr (fs.map fname) = true) (hf : f ∈ fs)
    (hget : getattrV x (fname f) = some fv)
    (hskip : shouldSkip (fschema f) fv = false) :
    lookupKw (keptKvs fs x) (fname f) = some fv := by
  induction fs with
  | nil => cases hf
  | cons g rest ih =>
      rw [List.map_cons, nodupStr, Bool.and_eq_true] at hnodup
      obtain ⟨hnotin, hnodup2⟩ := hnodup
      have hnotin2 : fname g ∉ rest.map fname := by
        rw [← contains_false_iff_str]
        simpa using hnotin
      rcases List.mem_cons.mp hf with rfl | htail
      · simp [keptKvs, hget, hskip, lookupKw]
      · have hne : fname g ≠ fname f := by
          intro he
          exact hnotin2 (he ▸ List.mem_map_of_mem fname htail)
        cases hg : getattrV x (fname g) with
        | none => simpa [keptKvs, hg] using ih hnodup2 htail
        | some gv =>
            by_cases hs : shouldSkip (fschema g) gv
            · simpa [keptKvs, hg, hs] using ih hnodup2 htail
            · simp only [keptKvs, hg, hs, Bool.false_eq_true, if_false,
                lookupKw]
              rw [if_neg (by simpa using hne)]
              exact ih hnodup2 htail

theorem keptKvs_lookup_skipped {fs : List FieldDef} {x : Value} {f : FieldDef}
    (hnodup : nodupStr (fs.map fname) = true) (hf : f ∈ fs)
    (hkeep : keepField x f = false) :
    lookupKw (keptKvs fs x) (fname f) = none := by
  induction fs with
  | nil => simp [keptKvs, lookupKw]
  | cons g rest ih =>
      rw [List.map_cons, nodupStr, Bool.and_eq_true] at hnodup
      obtain ⟨hnotin, hnodup2⟩ := hnodup
      have hnotin2 : fname g ∉ rest.map fname := by
        rw [← contains_false_iff_str]
        simpa using hnotin
      rcases List.mem_cons.mp hf with rfl | htail
      · cases hg : getattrV x (fname f) with
        | none =>
            simpa [keptKvs, hg] using keptKvs_lookup_absent hnotin2
        | some fv =>
            simp only [keepField, hg] at hkeep
            have hs : shouldSkip (fschema f) fv = true := by
              simpa using hkeep
            simpa [keptKvs, hg, hs] using keptKvs_lookup_absent hnotin2
      · have hne : fname g ≠ fname f := by
          intro he
          exact hnotin2 (he ▸ List.mem_map_of_mem fname htail)
        cases hg : getattrV x (fname g) with
        | none => simpa [keptKvs, hg] using ih hnodup2 htail
        | some gv =>
            by_cases hs : shouldSkip (fschema g) gv
            · simpa [keptKvs, hg, hs] using ih hnodup2 htail
            · simp only [keptKvs, hg, hs, Bool.false_eq_true, if_false,
                lookupKw]
              rw [if_neg (by simpa using hne)]
              exact ih hnodup2 htail

theorem findFieldI_self {fields : List FieldDef} {f : FieldDef}
    (hnodup : nodupNat (fields.map ffid) = true) (hf : f ∈ fields) :
    findFieldI fields ((ffid f : Nat) : Int) = some f := by
  induction fields with
  | nil => cases hf
  | cons g rest ih =>
      rw [List.map_cons, nodupNat, Bool.and_eq_true] at hnodup
      obtain ⟨hnotin, hnodup2⟩ := hnodup
      have hnotin2 : ffid g ∉ rest.map ffid := by
        rw [← contains_false_iff_nat]
        simpa using hnotin
      rcases List.mem_cons.mp hf with rfl | htail
      · rw [findFieldI, if_pos rfl]
      · have hne : ffid g ≠ ffid f := by
          intro he
          exact hnotin2 (he ▸ List.mem_map_of_mem ffid htail)
        rw [findFieldI, if_neg (by exact_mod_cast hne)]
        exact ih hnodup2 htail

theorem valueIsDefault_eq {wt : FieldType} {v : Value}
    (h : valueIsDefault wt v = true) : typeDefault wt = some v := by
  cases wt <;> cases v <;> simp [valueIsDefault] at h
  · next i =>
      obtain rfl : i = 0 := h
      rfl
  · next b =>
      obtain rfl : b = [] := h
      rfl
  · next b =>
      obtain rfl : b = [] := h
      rfl

theorem canonicalFields_lookup {fields : List FieldDef}
    {kvs : List (String × Value)} {f : FieldDef}
    (hnodup : nodupStr (fields.map fname) = true)
    (hc : canonicalFields fields kvs = true) (hf : f ∈ fields) :
    ∃ v, lookupKw kvs (fname f) = some v ∧
      fieldCanonical (fschema f) v = true := by
  induction fields generalizing kvs with
  | nil => cases hf
  | cons g rest ih =>
      rw [List.map_cons, nodupStr, Bool.and_eq_true] at hnodup
      obtain ⟨hnotin, hnodup2⟩ := hnodup
      have hnotin2 : fname g ∉ rest.map fname := by
        rw [← contains_false_iff_str]
        simpa using hnotin
      match kvs with
      | [] => rw [canonicalFields] at hc; cases hc
      | (k, v) :: krest =>
          rw [canonicalFields, Bool.and_eq_true, Bool.and_eq_true] at hc
          obtain ⟨⟨hk, hcv⟩, hcrest⟩ := hc
          have hkeq : k = fname g := by simpa using hk
          rcases List.mem_cons.mp hf with rfl | htail
          · exact ⟨v, by rw [lookupKw, if_pos (by simp [hkeq])], hcv⟩
          · have hne : fname g ≠ fname f := by
              intro he
              exact hnotin2 (he ▸ List.mem_map_of_mem fname htail)
            obtain ⟨w, hw, hcw⟩ := ih hnodup2 hcrest htail
            refine ⟨w, ?_, hcw⟩
            rw [lookupKw, if_neg (by simp [hkeq]; exact hne), hw]

theorem mkInstance_of_lookup {fields : List FieldDef}
    {kvs : List (String × Value)} {kw : List (String × Value)}
    (hnodup : nodupStr (fields.map fname) = true)
    (hc : canonicalFields fields kvs = true)
    (hl : ∀ f ∈ fields, lookupKw kw (fname f) = lookupKw kvs (fname f)) :
    mkInstance fields kw = .ok kvs := by
  induction fields generalizing kvs with
  | nil =>
      match kvs with
      | [] => rw [mkInstance]
      | (k, v) :: krest => rw [canonicalFields] at hc; cases hc
  | cons g rest ih =>
      rw [List.map_cons, nodupStr, Bool.and_eq_true] at hnodup
      obtain ⟨hnotin, hnodup2⟩ := hnodup
      have hnotin2 : fname g ∉ rest.map fname := by
        rw [← contains_false_iff_str]
        simpa using hnotin
      match kvs with
      | [] => rw [canonicalFields] at hc; cases hc
      | (k, v) :: krest =>
          rw [canonicalFields, Bool.and_eq_true, Bool.and_eq_true] at hc
          obtain ⟨⟨hk, hcv⟩, hcrest⟩ := hc
          have hkeq : k = fname g := by simpa using hk
          have hg := hl g (by simp)
          rw [lookupKw, if_pos (by simp [hkeq])] at hg
          rw [mkInstance, hg]
          have hrest : mkInstance rest kw = .ok krest := by
            refine ih hnodup2 hcrest ?_
            intro f hf
            have hne : fname g ≠ fname f := by
              intro he
              exact hnotin2 (he ▸ List.mem_map_of_mem fname hf)
            have := hl f (by simp [hf])
            rw [lookupKw, if_neg (by simp [hkeq]; exact hne)] at this
            exact this
          rw [hrest, hkeq]

theorem isNull_eq {v : Value} (h : v.isNull = true) : v = .null := by
  cases v <;> first | rfl | simp [Value.isNull] at h

theorem wfFieldList_mem {fields : List FieldDef} {f : FieldDef}
    (h : wfFieldList fields = true) (hf : f ∈ fields) :
    wfS (fschema f) = true := by
  induction fields with
  | nil => cases hf
  | cons g rest ih =>
      rw [wfFieldList, Bool.and_eq_true] at h
      rcases List.mem_cons.mp hf with rfl | ht
      · exact h.1
      · exact ih h.2 ht

theorem write_items_nil (item : Schema) : write_items item [] = .ok [] := by
  rw [write_items]

theorem write_items_cons_null_nullable {item : Schema}
    (hn : item.nullable = true) (rest : List Value) :
    write_items item (.null :: rest) =
      match write_items item rest with
      | .ok body => .ok (pushInt 0 :: body)
      | .error e => .error e := by
  rw [write_items, if_pos hn]

theorem write_items_cons_notnull {item : Schema} {v : Value}
    (hv : v.isNull = false) (rest : List Value) :
    write_items item (v :: rest) =
      if item.nullable then
        match write_type item v with
        | .ok ts =>
            match write_items item rest with
            | .ok body => .ok (pushInt 1 :: (ts ++ body))
            | .error e => .error e
        | .error e => .error e
      else
        match write_type item v with
        | .ok ts =>
            match write_items item rest with
            | .ok body => .ok (ts ++ body)
            | .error e => .error e
        | .error e => .error e := by
  cases v
  case null => simp [Value.isNull] at hv
  all_goals simp [write_items]

theorem read_items_zero (item : Schema) (toks : List Token) :
    read_items item 0 toks = .ok ([], toks) := by
  rw [read_items]

theorem read_items_succ_notnullable {item : Schema}
    (hnb : item.nullable = false) (n : Nat) (toks : List Token) :
    read_items item (n + 1) toks =
      match read_type item toks with
      | .ok (v, r) =>
          match read_items item n r with
          | .ok (vs, r2) => .ok (v :: vs, r2)
          | .error e => .error e
      | .error e => .error e := by
  cases toks with
  | nil =>
      conv_lhs => rw [read_items]
      rw [if_neg (by simp [hnb])]
  | cons t ts2 =>
      conv_lhs => rw [read_items]
      rw [if_neg (by simp [hnb])]

/-! ## Round-trip: decoding an encoded canonical instance

Mutual induction over the schema: `rt_type` / `rt_items` for one value /
list slots, `rt_loop` for the field-emission loop against the full field
list used for decode-side lookup, `rt_struct` for a whole structure. -/

mutual

theorem rt_type : ∀ (s : Schema) (v : Value), wfS s = true →
    canonicalV s v = true →
    ∃ ts, write_type s v = .ok ts ∧
      ∀ rest, read_type s (ts ++ rest) = .ok (v, rest)
  | .integer nb, v, hwf, hc => by
      cases v
      case int i =>
        exact ⟨[pushInt i], by simp [write_type],
          fun rest => by simp [read_type, itemToIntO_pushInt]⟩
      all_goals exact absurd hc (by simp [canonicalV])
  | .float32 nb, v, hwf, hc => by
      cases v
      case f32 b =>
        simp only [canonicalV, decide_eq_true_eq] at hc
        exact ⟨[mkPushItem b], by simp [write_type],
          fun rest => by simp [read_type, mkPushItem_item, hc]⟩
      all_goals exact absurd hc (by simp [canonicalV])
  | .float64 nb, v, hwf, hc => by
      cases v
      case f64 b =>
        simp only [canonicalV, decide_eq_true_eq] at hc
        exact ⟨[mkPushItem b], by simp [write_type],
          fun rest => by simp [read_type, mkPushItem_item, hc]⟩
      all_goals exact absurd hc (by simp [canonicalV])
  | .string nb, v, hwf, hc => by
      cases v
      case str b =>
        exact ⟨[mkPushItem b], by simp [write_type],
          fun rest => by simp [read_type, mkPushItem_item]⟩
      all_goals exact absurd hc (by simp [canonicalV])
  | .bytes nb, v, hwf, hc => by
      cases v
      case bytes b =>
        exact ⟨[mkPushItem b], by simp [write_type],
          fun rest => by simp [read_type, mkPushItem_item]⟩
      all_goals exact absurd hc (by simp [canonicalV])
  | .custom wt nb, v, hwf, hc => by
      cases v
      case custom b =>
        simp only [canonicalV, decide_eq_true_eq] at hc
        subst hc
        exact ⟨[mkPushItem b], by simp [write_type],
          fun rest => by simp [read_type, mkPushItem_item]⟩
      all_goals exact absurd hc (by simp [canonicalV])
  | .list item len nb, v, hwf, hc => by
      cases v
      case list vs =>
        rw [canonicalV.eq_def] at hc
        simp only [] at hc
        rw [Bool.and_eq_true] at hc
        obtain ⟨hci, hlen⟩ := hc
        rw [wfS] at hwf
        obtain ⟨ts, hw, hr⟩ := rt_items item vs hwf hci
        cases len with
        | some n =>
            have hn : vs.length = n := by simpa using hlen
            subst hn
            refine ⟨ts, by simp [write_type, hw], ?_⟩
            intro rest
            simp [read_type, hr]
        | none =>
            refine ⟨pushInt (vs.length : Int) :: ts,
              by simp [write_type, hw], ?_⟩
            intro rest
            simp [read_type, itemToIntO_pushInt_toNat, hr]
      all_goals exact absurd hc (by simp [canonicalV])
  | .obj fields nb, v, hwf, hc => by
      cases v
      case obj kvs =>
        rw [canonicalV.eq_def] at hc
        simp only [] at hc
        have hwd : wfDef fields = true := by
          rw [wfDef]
          rw [wfS] at hwf
          exact hwf
        obtain ⟨ts, hw, hr⟩ := rt_struct fields kvs hwd hc
        exact ⟨ts, by simp [write_type, hw],
          fun rest => by simp [read_type, hr]⟩
      all_goals exact absurd hc (by simp [canonicalV])
termination_by s _ _ _ => (sizeOf s, 0, 0)

theorem rt_items : ∀ (item : Schema) (vs : List Value), wfS item = true →
    canonicalItems item vs = true →
    ∃ ts, write_items item vs = .ok ts ∧
      ∀ rest, read_items item vs.length (ts ++ rest) = .ok (vs, rest)
  | item, [], hwf, hc =>
      ⟨[], write_items_nil item, fun rest => by simp [read_items_zero]⟩
  | item, v :: vs2, hwf, hc => by
      rw [canonicalItems, Bool.and_eq_true] at hc
      obtain ⟨hv1, hc2⟩ := hc
      obtain ⟨body, hwb, hrb⟩ := rt_items item vs2 hwf hc2
      by_cases hnull : v.isNull = true
      · obtain rfl := isNull_eq hnull
        have hn : item.nullable = true := by simpa [Value.isNull] using hv1
        refine ⟨pushInt 0 :: body, ?_, ?_⟩
        · rw [write_items_cons_null_nullable hn, hwb]
        · intro rest
          simp [read_items, hn, pushInt_zero_opcode, hrb rest,
            List.length_cons, List.cons_append]
      · have hnf : v.isNull = false := by simpa using hnull
        have hcv : canonicalV item v = true := by simpa [hnf] using hv1
        obtain ⟨ts, hwt, hrt⟩ := rt_type item v hwf hcv
        by_cases hn : item.nullable
        · refine ⟨pushInt 1 :: (ts ++ body), ?_, ?_⟩
          · rw [write_items_cons_notnull hnf, if_pos hn, hwt, hwb]
          · intro rest
            simp [read_items, hn, pushInt_one_opcode, hrt (body ++ rest),
              hrb rest, List.length_cons, List.cons_append, List.append_assoc]
        · have hnb : item.nullable = false := by simpa using hn
          refine ⟨ts ++ body, ?_, ?_⟩
          · rw [write_items_cons_notnull hnf, if_neg hn, hwt, hwb]
          · intro rest
            simp only [List.length_cons, List.append_assoc]
            rw [read_items_succ_notnullable hnb]
            simp [hrt (body ++ rest), hrb rest]
termination_by item vs _ _ => (sizeOf item, 1, vs.length)

theorem rt_loop : ∀ (D : List FieldDef) (x : Value) (fs : List FieldDef),
    (∀ f ∈ fs, findFieldI D ((ffid f : Nat) : Int) = some f) →
    (∀ f ∈ fs, wfS (fschema f) = true) →
    (∀ f ∈ fs, ∃ v, getattrV x (fname f) = some v ∧
        fieldCanonical (fschema f) v = true) →
    nodupStr (fs.map fname) = true →
    ∃ body, write_field_loop fs x = .ok body ∧
      ∀ rest kw0, (∀ f ∈ fs, lookupKw kw0 (fname f) = none) →
        read_field_loop D ((fs.filter (keepField x)).length) (body ++ rest) kw0 =
          .ok (kw0 ++ keptKvs fs x, rest)
  | D, x, [], hsub, hwfe, hcan, hnames => by
      refine ⟨[], by rw [write_field_loop], ?_⟩
      intro rest kw0 hdisj
      simp [keptKvs, read_field_loop_zero]
  | D, x, f :: fs2, hsub, hwfe, hcan, hnames => by
      rw [List.map_cons, nodupStr, Bool.and_eq_true] at hnames
      obtain ⟨hnotin, hnames2⟩ := hnames
      have hnotin2 : fname f ∉ fs2.map fname := by
        rw [← contains_false_iff_str]
        simpa using hnotin
      obtain ⟨v, hget, hfc⟩ := hcan f (by simp)
      have hsub2 : ∀ g ∈ fs2, findFieldI D ((ffid g : Nat) : Int) = some g :=
        fun g hg => hsub g (by simp [hg])
      have hwfe2 : ∀ g ∈ fs2, wfS (fschema g) = true :=
        fun g hg => hwfe g (by simp [hg])
      have hcan2 : ∀ g ∈ fs2, ∃ w, getattrV x (fname g) = some w ∧
          fieldCanonical (fschema g) w = true :=
        fun g hg => hcan g (by simp [hg])
      obtain ⟨body2, hw2, hr2⟩ := rt_loop D x fs2 hsub2 hwfe2 hcan2 hnames2
      by_cases hskip : shouldSkip (fschema f) v = true
      · -- the field is elided: it contributes no tokens and no kwargs entry
        have hkeep : keepField x f = false := by
          simp [keepField, hget, hskip]
        refine ⟨body2, by simpa [write_field_loop, hget, hskip] using hw2, ?_⟩
        intro rest kw0 hdisj
        have hdisj2 : ∀ g ∈ fs2, lookupKw kw0 (fname g) = none :=
          fun g hg => hdisj g (by simp [hg])
        have hstep := hr2 rest kw0 hdisj2
        simpa [List.filter_cons, hkeep, keptKvs, hget, hskip] using hstep
      · -- the field is written: id token, value tokens, kwargs entry
        have hsf : shouldSkip (fschema f) v = false := by simpa using hskip
        have hkeep : keepField x f = true := by
          simp [keepField, hget, hsf]
        have hnull : v.isNull = false := by
          by_contra hcon
          have hnl : v.isNull = true := by
            revert hcon
            cases v.isNull <;> simp
          obtain rfl := isNull_eq hnl
          rw [fieldCanonical] at hfc
          simp only [Value.isNull, if_true] at hfc
          rw [Bool.and_eq_true] at hfc
          obtain ⟨hnb, hdef⟩ := hfc
          rw [Option.isSome_iff_exists] at hdef
          obtain ⟨d, hd⟩ := hdef
          rw [shouldSkip, hd, if_pos hnb] at hsf
          simp [Value.isNull] at hsf
        have hcv : canonicalV (fschema f) v = true := by
          rw [fieldCanonical, hnull] at hfc
          simpa using hfc
        obtain ⟨ts, hwt, hrt⟩ := rt_type (fschema f) v (hwfe f (by simp)) hcv
        refine ⟨pushInt ((ffid f : Nat) : Int) :: (ts ++ body2), ?_, ?_⟩
        · simp [write_field_loop, hget, hsf, hwt, hw2]
        · intro rest kw0 hdisj
          have hdisj2 : ∀ g ∈ fs2, lookupKw kw0 (fname g) = none :=
            fun g hg => hdisj g (by simp [hg])
          have hkw0f : lookupKw kw0 (fname f) = none := hdisj f (by simp)
          have hflt : ((f :: fs2).filter (keepField x)).length =
              (fs2.filter (keepField x)).length + 1 := by
            simp [List.filter_cons, hkeep]
          rw [hflt]
          have hassoc : ((pushInt ((ffid f : Nat) : Int) :: (ts ++ body2)) ++ rest) =
              pushInt ((ffid f : Nat) : Int) :: (ts ++ (body2 ++ rest)) := by
            simp
          rw [hassoc]
          have hfind : findFieldI D
              (itemToIntO (pushInt ((ffid f : Nat) : Int)).item) = some f := by
            rw [itemToIntO_pushInt]
            exact hsub f (by simp)
          rw [read_field_loop_found _ _ _ hfind]
          have hdisj3 : ∀ g ∈ fs2,
              lookupKw (kw0 ++ [(fname f, v)]) (fname g) = none := by
            intro g hg
            have hne : fname f ≠ fname g :=
              fun he => hnotin2 (he ▸ List.mem_map_of_mem fname hg)
            rw [lookupKw_append_single_ne _ hne]
            exact hdisj2 g hg
          have hkept : keptKvs (f :: fs2) x = (fname f, v) :: keptKvs fs2 x := by
            simp [keptKvs, hget, hsf]
          simp only [hrt (body2 ++ rest), insertKw_of_none v hkw0f,
            hr2 rest (kw0 ++ [(fname f, v)]) hdisj3, hkept]
          simp
termination_by D x fs _ _ _ _ => (sizeOf fs, 2, 0)
decreasing_by
  all_goals simp_wf
  all_goals
    first
      | decreasing_tactic
      | exact Prod.Lex.left _ _ (sizeOf_fschema_lt_cons f fs2)

theorem rt_struct (fields : List FieldDef) (kvs : List (String × Value))
    (hwf : wfDef fields = true) (hc : canonicalFields fields kvs = true) :
    ∃ ts, write_structure fields (.obj kvs) = .ok ts ∧
      ∀ rest, read_structure fields (ts ++ rest) = .ok (.obj kvs, rest) := by
  have hconj := hwf
  rw [wfDef, Bool.and_eq_true, Bool.and_eq_true] at hconj
  obtain ⟨⟨hnodupN, hnodupS⟩, hwfl⟩ := hconj
  have hsub : ∀ f ∈ fields, findFieldI fields ((ffid f : Nat) : Int) = some f :=
    fun f hf => findFieldI_self hnodupN hf
  have hwfe : ∀ f ∈ fields, wfS (fschema f) = true :=
    fun f hf => wfFieldList_mem hwfl hf
  have hcan : ∀ f ∈ fields, ∃ v, getattrV (Value.obj kvs) (fname f) = some v ∧
      fieldCanonical (fschema f) v = true := by
    intro f hf
    obtain ⟨v, hv, hfc⟩ := canonicalFields_lookup hnodupS hc hf
    exact ⟨v, by simpa [getattrV] using hv, hfc⟩
  obtain ⟨body, hwb, hrb⟩ :=
    rt_loop fields (Value.obj kvs) fields hsub hwfe hcan hnodupS
  refine ⟨pushInt (((fields.filter (keepField (Value.obj kvs))).length : Nat) : Int)
      :: body, ?_, ?_⟩
  · rw [write_structure_eq, hwb]
  · intro rest
    have hmk : mkInstance fields
        (backfill fields (keptKvs fields (Value.obj kvs))) = .ok kvs := by
      refine mkInstance_of_lookup hnodupS hc ?_
      intro f hf
      obtain ⟨v, hv, hfc⟩ := canonicalFields_lookup hnodupS hc hf
      have hget : getattrV (Value.obj kvs) (fname f) = some v := by
        simpa [getattrV] using hv
      rw [hv]
      by_cases hskip : shouldSkip (fschema f) v = true
      · have hkeep : keepField (Value.obj kvs) f = false := by
          simp [keepField, hget, hskip]
        have hnone := keptKvs_lookup_skipped hnodupS hf hkeep
        rw [backfill_miss hnodupS hf hnone]
        cases hd : typeDefault (fschema f).wireType with
        | none => simp [shouldSkip, hd] at hskip
        | some d =>
            by_cases hnb : (fschema f).nullable
            · rw [if_pos hnb]
              simp [shouldSkip, hd, hnb] at hskip
              obtain rfl := isNull_eq hskip
              rfl
            · rw [if_neg hnb]
              simp [shouldSkip, hd, hnb] at hskip
              have h3 := valueIsDefault_eq hskip
              rw [hd] at h3
              injection h3 with h2
              show some d = some v
              rw [h2]
      · have hsf : shouldSkip (fschema f) v = false := by simpa using hskip
        have hsome := keptKvs_lookup_kept hnodupS hf hget hsf
        exact backfill_pres hsome
    have hassoc : ((pushInt (((fields.filter (keepField (Value.obj kvs))).length
        : Nat) : Int) :: body) ++ rest) =
        pushInt (((fields.filter (keepField (Value.obj kvs))).length : Nat) : Int)
          :: (body ++ rest) := by
      simp
    rw [hassoc, read_structure_cons, itemToIntO_pushInt_toNat]
    have hloop := hrb rest [] (by intro f hf; rfl)
    simp only [hloop, List.nil_append, hmk]
termination_by (sizeOf fields, 3, 0)

end

/-- `read_field_loop` step with the field lookup exposed as a plain match
(suitable for rewriting with a computed lookup result). -/
theorem read_field_loop_cons (fields : List FieldDef) (n : Nat) (tok : Token)
    (rest : List Token) (kwargs : List (String × Value)) :
    read_field_loop fields (n + 1) (tok :: rest) kwargs =
      match findFieldI fields (itemToIntO tok.item) with
      | none => .error .unknownField
      | some f =>
          match read_type (fschema f) rest with
          | .ok (v, rest2) =>
              read_field_loop fields n rest2 (insertKw kwargs (fname f) v)
          | .error e => .error e := by
  cases hf : findFieldI fields (itemToIntO tok.item) with
  | none => rw [read_field_loop_unknown _ _ _ hf]
  | some f => rw [read_field_loop_found _ _ _ hf]

/-- A declared field that `_write_structure` does not keep (attribute
absent, or value elided) contributes nothing: neither the field count nor
the emitted tokens differ from a definition without it. -/
theorem write_skip_removal {f : FieldDef} {x : Value}
    (hkeep : keepField x f = false) (pre post : List FieldDef) :
    write_structure (pre ++ f :: post) x = write_structure (pre ++ post) x := by
  have hlp : write_field_loop (pre ++ f :: post) x =
      write_field_loop (pre ++ post) x := by
    induction pre with
    | nil =>
        simp only [List.nil_append]
        cases hg : getattrV x (fname f) with
        | none => simp [write_field_loop, hg]
        | some fv =>
            have hs : shouldSkip (fschema f) fv = true := by
              simp only [keepField, hg] at hkeep
              simpa using hkeep
            simp [write_field_loop, hg, hs]
    | cons g pres ih =>
        simp only [List.cons_append]
        cases hg : getattrV x (fname g) with
        | none => simp [write_field_loop, hg, ih]
        | some gv =>
            by_cases hs : shouldSkip (fschema g) gv
            · simp [write_field_loop, hg, hs, ih]
            · simp [write_field_loop, hg, hs, ih]
  have hfl : (pre ++ f :: post).filter (keepField x) =
      (pre ++ post).filter (keepField x) := by
    simp [List.filter_append, List.filter_cons, hkeep]
  rw [write_structure_eq, write_structure_eq, hfl, hlp]

/-- Modelled from the spec (section 4.3 step 1), for comparison with the
implementation's `shouldSkip`: "Skip the field entirely (no id, no value
written) when: the field is nullable and the value is null; OR the field
is non-nullable, has a defined zero default, and the value equals that
default." -/
def specSkip (s : Schema) (v : Value) : Bool :=
  if s.nullable then v.isNull
  else (typeDefault s.wireType).isSome && valueIsDefault s.wireType v

/-! ## Claim theorems -/

/-- C6: decoding a Float32 field whose token payload is not exactly 4
bytes, or a Float64 field whose payload is not exactly 8 bytes (including
a missing payload), fails with the invalid-float-length error; with the
correct length the payload is taken as the little-endian IEEE-754 value
(in this model, the value is its 4- resp. 8-byte little-endian bit
pattern). -/
theorem bsor_float_length :
    ∀ (nb : Bool) (tok : Token) (rest : List Token),
      (∀ b, tok.item = some b → b.length ≠ 4 →
        read_type (.float32 nb) (tok :: rest) = .error .invalidFloatLength) ∧
      (tok.item = none →
        read_type (.float32 nb) (tok :: rest) = .error .invalidFloatLength) ∧
      (∀ b, tok.item = some b → b.length = 4 →
        read_type (.float32 nb) (tok :: rest) = .ok (.f32 b, rest)) ∧
      (∀ b, tok.item = some b → b.length ≠ 8 →
        read_type (.float64 nb) (tok :: rest) = .error .invalidFloatLength) ∧
      (tok.item = none →
        read_type (.float64 nb) (tok :: rest) = .error .invalidFloatLength) ∧
      (∀ b, tok.item = some b → b.length = 8 →
        read_type (.float64 nb) (tok :: rest) = .ok (.f64 b, rest)) := by
  intro nb tok rest
  refine ⟨?_, ?_, ?_, ?_, ?_, ?_⟩
  · intro b hb hlen
    simp [read_type, hb, hlen]
  · intro hb
    simp [read_type, hb]
  · intro b hb hlen
    simp [read_type, hb, hlen]
  · intro b hb hlen
    simp [read_type, hb, hlen]
  · intro hb
    simp [read_type, hb]
  · intro b hb hlen
    simp [read_type, hb, hlen]

/-- Witness for C6: a Float32 token with a 3-byte payload and a Float64
token with a 9-byte payload both fail; a 4-byte payload succeeds. -/
theorem bsor_float_length_witness :
    ((mkPushItem [1, 2, 3]).item = some [1, 2, 3] ∧
      ([1, 2, 3] : List Nat).length ≠ 4 ∧
      (mkPushItem [1, 2, 3, 4, 5, 6, 7, 8, 9]).item =
        some [1, 2, 3, 4, 5, 6, 7, 8, 9] ∧
      ([1, 2, 3, 4, 5, 6, 7, 8, 9] : List Nat).length ≠ 8) ∧
    read_type (.float32 false) [mkPushItem [1, 2, 3]] =
      .error .invalidFloatLength ∧
    read_type (.float64 false) [mkPushItem [1, 2, 3, 4, 5, 6, 7, 8, 9]] =
      .error .invalidFloatLength ∧
    read_type (.float32 false) [mkPushItem [1, 2, 3, 4]] =
      .ok (.f32 [1, 2, 3, 4], []) := by
  refine ⟨⟨by decide, by decide, by decide, by decide⟩, ?_, ?_, ?_⟩
  · have h := (bsor_float_length false (mkPushItem [1, 2, 3]) []).1
    simpa using h [1, 2, 3] (by decide) (by decide)
  · have h := (bsor_float_length false
      (mkPushItem [1, 2, 3, 4, 5, 6, 7, 8, 9]) []).2.2.2.1
    simpa using h [1, 2, 3, 4, 5, 6, 7, 8, 9] (by decide) (by decide)
  · have h := (bsor_float_length false (mkPushItem [1, 2, 3, 4]) []).2.2.1
    simpa using h [1, 2, 3, 4] (by decide) (by decide)

/-- C7: a field id read from the stream that matches no declared field is
a fatal error — `get_field_entry` raises before any value bytes are
consumed, no bytes are skipped, and the decode call returns no
instance. -/
theorem bsor_unknown_field :
    ∀ (fields : List FieldDef) (tok : Token) (rest : List Token) (n : Nat)
      (kwargs : List (String × Value)),
      findFieldI fields (itemToIntO tok.item) = none →
      read_field_loop fields (n + 1) (tok :: rest) kwargs =
        .error .unknownField ∧
      read_structure fields (pushInt 1 :: tok :: rest) =
        .error .unknownField := by
  intro fields tok rest n kwargs hf
  constructor
  · exact read_field_loop_unknown n rest kwargs hf
  · rw [read_structure_cons]
    have h1 : (itemToIntO (pushInt 1).item).toNat = 1 := by
      rw [itemToIntO_pushInt]
      rfl
    rw [h1]
    rw [read_field_loop_unknown 0 rest [] hf]

/-- Witness for C7: the spec's example — `count=1` then `fieldId=999`
against a schema that declares only id 1. -/
theorem bsor_unknown_field_witness :
    findFieldI [("A", 1, Schema.integer false)]
      (itemToIntO (pushInt 999).item) = none ∧
    read_structure [("A", 1, Schema.integer false)]
      [pushInt 1, pushInt 999] = .error .unknownField := by
  have hf : findFieldI [("A", 1, Schema.integer false)]
      (itemToIntO (pushInt 999).item) = none := by
    rw [itemToIntO_pushInt]
    simp [findFieldI, ffid]
  exact ⟨hf,
    (bsor_unknown_field [("A", 1, Schema.integer false)]
      (pushInt 999) [] 0 [] hf).2⟩

/-- C4: nullable list slots carry a one-byte presence token — `OP_0`
(a zero push) marks a null slot consuming nothing further, `OP_1` is
followed by the element value, and any other presence opcode fails with
the invalid-pointer-prefix error; encoding writes `push_int(0)` for null
and `push_int(1)` before a value, so `[5, null, 7]` as nullable integers
encodes to `count=3` followed by presence-prefixed slots in order and
decodes back to itself. -/
theorem bsor_nullable_list_elements :
    write_type (.list (.integer true) none false)
        (.list [.int 5, .null, .int 7]) =
      .ok [pushInt 3, pushInt 1, pushInt 5, pushInt 0, pushInt 1, pushInt 7] ∧
    read_type (.list (.integer true) none false)
        [pushInt 3, pushInt 1, pushInt 5, pushInt 0, pushInt 1, pushInt 7] =
      .ok (.list [.int 5, .null, .int 7], []) ∧
    (∀ (item : Schema) (n : Nat) (rest : List Token), item.nullable = true →
      read_items item (n + 1) (pushInt 0 :: rest) =
        match read_items item n rest with
        | .ok (vs, r) => .ok (.null :: vs, r)
        | .error e => .error e) ∧
    (∀ (item : Schema) (n : Nat) (tok : Token) (rest : List Token),
      item.nullable = true → tok.opcode ≠ 0 → tok.opcode ≠ 81 →
      read_items item (n + 1) (tok :: rest) = .error .invalidPointerPrefix) ∧
    (∀ (item : Schema) (n : Nat) (rest : List Token), item.nullable = true →
      read_items item (n + 1) (pushInt 1 :: rest) =
        match read_type item rest with
        | .ok (v, r) =>
            match read_items item n r with
            | .ok (vs, r2) => .ok (v :: vs, r2)
            | .error e => .error e
        | .error e => .error e) := by
  have hwf : wfS (Schema.integer true) = true := by rw [wfS]
  have hcan : canonicalItems (.integer true) [.int 5, .null, .int 7] = true := by
    simp [canonicalItems, canonicalV.eq_def, Value.isNull, Schema.nullable]
  obtain ⟨ts, hw, hr⟩ := rt_items (.integer true) [.int 5, .null, .int 7] hwf hcan
  have hw2 : write_items (.integer true) [.int 5, .null, .int 7] =
      .ok [pushInt 1, pushInt 5, pushInt 0, pushInt 1, pushInt 7] := by
    simp [write_items, write_type, Schema.nullable]
  have hts : ts = [pushInt 1, pushInt 5, pushInt 0, pushInt 1, pushInt 7] := by
    rw [hw] at hw2
    injection hw2
  subst hts
  refine ⟨?_, ?_, ?_, ?_, ?_⟩
  · simp [write_type, hw]
  · have hread := hr []
    rw [List.append_nil] at hread
    norm_num at hread
    simp [read_type, itemToIntO_pushInt, hread]
  · intro item n rest hn
    simp [read_items, hn, pushInt_zero_opcode]
  · intro item n tok rest hn h0 h81
    simp [read_items, hn, h0, h81]
  · intro item n rest hn
    simp [read_items, hn, pushInt_one_opcode]

/-- Witness for C4: the universal decode clauses instantiated — the
presence-0 slot, an invalid presence opcode (an `OP_2` token, value 2),
and the presence-1 slot, each on a concrete one-element stream. -/
theorem bsor_nullable_list_elements_witness :
    ((Schema.integer true).nullable = true ∧
      (mkPushItem [2]).opcode ≠ 0 ∧ (mkPushItem [2]).opcode ≠ 81) ∧
    read_items (.integer true) 1 [pushInt 0] = .ok ([.null], []) ∧
    read_items (.integer true) 1 [mkPushItem [2], pushInt 9] =
      .error .invalidPointerPrefix ∧
    read_items (.integer true) 1 [pushInt 1, pushInt 9] = .ok ([.int 9], []) := by
  refine ⟨⟨by rw [Schema.nullable], by decide, by decide⟩, ?_, ?_, ?_⟩
  · have h := bsor_nullable_list_elements.2.2.1 (.integer true) 0 []
      (by rw [Schema.nullable])
    rw [h, read_items_zero]
  · exact bsor_nullable_list_elements.2.2.2.1 (.integer true) 0
      (mkPushItem [2]) [pushInt 9] (by rw [Schema.nullable])
      (by decide) (by decide)
  · have h := bsor_nullable_list_elements.2.2.2.2 (.integer true) 0 [pushInt 9]
      (by rw [Schema.nullable])
    rw [h]
    simp [read_type, itemToIntO_pushInt, read_items_zero]

/-- C5: a list field with a schema-declared fixed length (`bsor_length`)
emits no runtime count token and the decoder consumes none, reading
exactly the schema-declared number of elements; without a fixed length
one leading count token is written and read. -/
theorem bsor_fixed_length_list (item : Schema) (vs : List Value) (nb : Bool)
    (hwf : wfS item = true) (hc : canonicalItems item vs = true) :
    ∃ body, write_items item vs = .ok body ∧
      write_type (.list item (some vs.length) nb) (.list vs) = .ok body ∧
      write_type (.list item none nb) (.list vs) =
        .ok (pushInt (vs.length : Int) :: body) ∧
      (∀ rest, read_type (.list item (some vs.length) nb) (body ++ rest) =
        .ok (.list vs, rest)) ∧
      (∀ rest, read_type (.list item none nb)
          (pushInt (vs.length : Int) :: (body ++ rest)) =
        .ok (.list vs, rest)) := by
  obtain ⟨ts, hw, hr⟩ := rt_items item vs hwf hc
  refine ⟨ts, hw, by simp [write_type, hw], by simp [write_type, hw], ?_, ?_⟩
  · intro rest
    simp [read_type, hr rest]
  · intro rest
    simp [read_type, itemToIntO_pushInt_toNat, hr rest]

/-- Witness for C5: a two-element integer list under both a fixed-length
and a dynamic-length schema. -/
theorem bsor_fixed_length_list_witness :
    (wfS (Schema.integer false) = true ∧
      canonicalItems (.integer false) [.int 4, .int 9] = true) ∧
    (∃ body, write_items (.integer false) [.int 4, .int 9] = .ok body ∧
      write_type (.list (.integer false) (some 2) false)
          (.list [.int 4, .int 9]) = .ok body ∧
      write_type (.list (.integer false) none false) (.list [.int 4, .int 9]) =
        .ok (pushInt 2 :: body) ∧
      (∀ rest, read_type (.list (.integer false) (some 2) false)
          (body ++ rest) = .ok (.list [.int 4, .int 9], rest)) ∧
      (∀ rest, read_type (.list (.integer false) none false)
          (pushInt 2 :: (body ++ rest)) = .ok (.list [.int 4, .int 9], rest))) := by
  have hwf : wfS (Schema.integer false) = true := by rw [wfS]
  have hc : canonicalItems (.integer false) [.int 4, .int 9] = true := by
    simp [canonicalItems, canonicalV.eq_def, Value.isNull]
  refine ⟨⟨hwf, hc⟩, ?_⟩
  have h := bsor_fixed_length_list (.integer false) [.int 4, .int 9] false hwf hc
  simpa using h

/-- C8: `DataclassDefinition.__init__` builds the `encountered_identifiers`
set but never consults it — a declared field list with two fields sharing
`bsor_id = 1` builds successfully instead of failing with a schema error.
The spec calls for a duplicate-id failure at Definition-build time; the
code performs no such check (the claim describes the intent, the code
omits it). -/
theorem bsor_build_accepts_duplicate_ids :
    buildFields [⟨"A", some 1, none, "int"⟩, ⟨"B", some 1, none, "int"⟩] [] =
      .ok [("A", 1, ⟨.INTEGER, false, false⟩),
           ("B", 1, ⟨.INTEGER, false, false⟩)] := by
  rfl

/-- C10: a class-reference binding whose wire type is neither BYTES nor
OBJECT is accepted when the Definition is built, but `_write_type` raises
`NotImplementedError` for every value of such a field. -/
theorem bsor_custom_nonbytes_encode :
    buildFields [⟨"K", some 1, none, "PublicKey"⟩] [("PublicKey", .INTEGER)] =
      .ok [("K", 1, ⟨.INTEGER, true, false⟩)] ∧
    ∀ (wt : FieldType) (nb : Bool) (v : Value), wt ≠ .BYTES → wt ≠ .OBJECT →
      write_type (.custom wt nb) v = .error .notImplemented := by
  constructor
  · rfl
  · intro wt nb v hb ho
    rw [write_type.eq_def]
    simp only []
    rw [if_neg hb]

/-- Witness for C10: an INTEGER-wired class reference fails to encode. -/
theorem bsor_custom_nonbytes_encode_witness :
    (FieldType.INTEGER ≠ FieldType.BYTES ∧
      FieldType.INTEGER ≠ FieldType.OBJECT) ∧
    write_type (.custom .INTEGER false) (.custom [2]) =
      .error .notImplemented :=
  ⟨⟨by decide, by decide⟩,
    bsor_custom_nonbytes_encode.2 .INTEGER false (.custom [2])
      (by decide) (by decide)⟩

/-- C9: a declared field whose attribute is absent from the instance is
silently omitted — the emitted stream (count and body alike) equals that
of a definition without the field, and no error is raised; concretely, a
two-field schema against an instance carrying only field `B` encodes to
`count=1` with only `B`'s id and value. -/
theorem bsor_missing_attribute_skipped :
    (∀ (x : Value) (f : FieldDef) (pre post : List FieldDef),
      getattrV x (fname f) = none →
      write_structure (pre ++ f :: post) x = write_structure (pre ++ post) x) ∧
    write_structure [("A", 1, .integer false), ("B", 2, .integer false)]
        (.obj [("B", .int 5)]) =
      .ok [pushInt 1, pushInt 2, pushInt 5] := by
  constructor
  · intro x f pre post hg
    exact write_skip_removal (by simp [keepField, hg]) pre post
  · simp [write_structure_eq, write_field_loop, getattrV, lookupKw, fname,
      ffid, fschema, shouldSkip, typeDefault, Schema.wireType, Schema.nullable,
      keepField, write_type, List.filter_cons, valueIsDefault]

/-- Witness for C9: removing a single absent-attribute field from the
declaration changes nothing. -/
theorem bsor_missing_attribute_skipped_witness :
    getattrV (.obj []) (fname (("A", 1, Schema.integer false) : FieldDef)) =
      none ∧
    write_structure ([] ++ ("A", 1, Schema.integer false) :: []) (.obj []) =
      write_structure ([] ++ []) (.obj []) :=
  ⟨rfl, bsor_missing_attribute_skipped.1 (.obj [])
    ("A", 1, Schema.integer false) [] [] rfl⟩

/-- C3: `_read_structure` back-fills every declared field missing from
the read `kwargs` before the instance is constructed — nullable fields
get `None`, non-nullable fields of a `TYPE_DEFAULTS` type get the zero
default (Integer → 0, String → empty, Bytes → empty); the spec's example
stream `count=1, id=2, "hi"` against `{IntField(1,int), StrField(2,str)}`
decodes to `{IntField = 0 (back-filled), StrField = "hi"}`. -/
theorem bsor_decode_backfill :
    (∀ (fields : List FieldDef) (f : FieldDef)
        (kwargs : List (String × Value)),
      nodupStr (fields.map fname) = true → f ∈ fields →
      lookupKw kwargs (fname f) = none →
      ((fschema f).nullable = true →
        lookupKw (backfill fields kwargs) (fname f) = some Value.null) ∧
      ((fschema f).nullable = false →
        ∀ d, typeDefault (fschema f).wireType = some d →
          lookupKw (backfill fields kwargs) (fname f) = some d)) ∧
    typeDefault .INTEGER = some (.int 0) ∧
    typeDefault .STRING = some (.str []) ∧
    typeDefault .BYTES = some (.bytes []) ∧
    read_structure
        [("IntField", 1, .integer false), ("StrField", 2, .string false)]
        [pushInt 1, pushInt 2, mkPushItem [104, 105]] =
      .ok (.obj [("IntField", .int 0), ("StrField", .str [104, 105])], []) := by
  refine ⟨?_, rfl, rfl, rfl, ?_⟩
  · intro fields f kwargs hnodup hf hnone
    constructor
    · intro hn
      rw [backfill_miss hnodup hf hnone, if_pos hn]
    · intro hn d hd
      rw [backfill_miss hnodup hf hnone, if_neg (by simp [hn]), hd]
  · have hwf : wfDef [("IntField", 1, Schema.integer false),
        ("StrField", 2, Schema.string false)] = true := by
      simp [wfDef, wfFieldList, wfS, nodupNat, nodupStr, ffid, fname, fschema]
    have hc : canonicalFields [("IntField", 1, Schema.integer false),
        ("StrField", 2, Schema.string false)]
        [("IntField", .int 0), ("StrField", .str [104, 105])] = true := by
      simp [canonicalFields, fieldCanonical, canonicalV.eq_def, Value.isNull,
        fname, fschema]
    obtain ⟨ts, hw, hr⟩ := rt_struct _ _ hwf hc
    have hw2 : write_structure [("IntField", 1, Schema.integer false),
        ("StrField", 2, Schema.string false)]
        (.obj [("IntField", .int 0), ("StrField", .str [104, 105])]) =
        .ok [pushInt 1, pushInt 2, mkPushItem [104, 105]] := by
      simp [write_structure_eq, write_field_loop, getattrV, lookupKw, fname,
        ffid, fschema, shouldSkip, typeDefault, Schema.wireType,
        Schema.nullable, keepField, write_type, List.filter_cons,
        valueIsDefault]
    rw [hw] at hw2
    injection hw2 with hts
    subst hts
    have hread := hr []
    rw [List.append_nil] at hread
    exact hread

/-- Witness for C3: back-fill of a nullable field and of a non-nullable
integer field, on a concrete two-field definition with empty kwargs. -/
theorem bsor_decode_backfill_witness :
    (nodupStr ([("P", 1, Schema.string true),
        ("Q", 2, Schema.integer false)].map fname) = true ∧
      ("P", 1, Schema.string true) ∈
        [("P", 1, Schema.string true), ("Q", 2, Schema.integer false)] ∧
      lookupKw [] (fname (("P", 1, Schema.string true) : FieldDef)) = none) ∧
    lookupKw (backfill [("P", 1, Schema.string true),
        ("Q", 2, Schema.integer false)] []) "P" = some Value.null ∧
    lookupKw (backfill [("P", 1, Schema.string true),
        ("Q", 2, Schema.integer false)] []) "Q" = some (Value.int 0) := by
  have h1 := (bsor_decode_backfill.1
    [("P", 1, Schema.string true), ("Q", 2, Schema.integer false)]
    ("P", 1, Schema.string true) []
    (by simp [nodupStr, fname]) (by simp) rfl).1 rfl
  have h2 := (bsor_decode_backfill.1
    [("P", 1, Schema.string true), ("Q", 2, Schema.integer false)]
    ("Q", 2, Schema.integer false) []
    (by simp [nodupStr, fname]) (by simp) rfl).2 rfl (Value.int 0) rfl
  exact ⟨⟨by simp [nodupStr, fname], by simp, rfl⟩, h1, h2⟩

/-- Counterexample for C2: a nullable Float32 field holding `None` is,
per the claim, skipped entirely — but `_write_structure` only applies the
elision test to `TYPE_DEFAULTS` types (INTEGER, STRING, BYTES), so the
field is not skipped (`shouldSkip` is false where the claimed predicate
`specSkip` is true) and encoding the structure fails with a `TypeError`
from `struct.pack("<f", None)` instead of eliding the field. -/
theorem bsor_skip_counterexample :
    shouldSkip (.float32 true) Value.null = false ∧
    specSkip (.float32 true) Value.null = true ∧
    write_structure [("F", 1, .float32 true)] (.obj [("F", Value.null)]) =
      .error .typeError := by
  refine ⟨rfl, rfl, ?_⟩
  simp [write_structure_eq, write_field_loop, getattrV, lookupKw, fname, ffid,
    fschema, shouldSkip, typeDefault, Schema.wireType, Schema.nullable,
    keepField, write_type]

/-- C2 amended: the encoder skips a declared field exactly when the
field's wire type has a `TYPE_DEFAULTS` entry (Integer, String or Bytes)
and either the field is nullable with a null value, or non-nullable with
the zero-default value; List and Object fields (which have no zero
default) are never skipped, and a skipped field contributes neither to
the field count nor to the emitted tokens. -/
theorem bsor_skip_characterization :
    (∀ (s : Schema) (v : Value),
      shouldSkip s v = true ↔
        ((typeDefault s.wireType).isSome = true ∧
          ((s.nullable = true ∧ v = Value.null) ∨
            (s.nullable = false ∧ valueIsDefault s.wireType v = true)))) ∧
    (∀ (s : Schema) (v : Value),
      s.wireType = .LIST ∨ s.wireType = .OBJECT → shouldSkip s v = false) ∧
    (∀ (x : Value) (f : FieldDef) (fv : Value) (pre post : List FieldDef),
      getattrV x (fname f) = some fv → shouldSkip (fschema f) fv = true →
      write_structure (pre ++ f :: post) x = write_structure (pre ++ post) x) := by
  refine ⟨?_, ?_, ?_⟩
  · intro s v
    rw [shouldSkip]
    cases hd : typeDefault s.wireType with
    | none => simp
    | some d =>
        simp only [Option.isSome_some, true_and]
        by_cases hn : s.nullable = true
        · rw [if_pos hn]
          constructor
          · intro h
            exact Or.inl ⟨hn, isNull_eq h⟩
          · rintro (⟨h1, rfl⟩ | ⟨h1, h2⟩)
            · rfl
            · rw [hn] at h1
              cases h1
        · rw [if_neg hn]
          have hnf : s.nullable = false := by simpa using hn
          constructor
          · intro h
            exact Or.inr ⟨hnf, h⟩
          · rintro (⟨h1, rfl⟩ | ⟨h1, h2⟩)
            · rw [hnf] at h1
              cases h1
            · exact h2
  · intro s v hw
    rcases hw with h | h <;> simp [shouldSkip, h, typeDefault]
  · intro x f fv pre post hget hskip
    exact write_skip_removal (by simp [keepField, hget, hskip]) pre post

/-- Witness for C2 amended: a non-nullable integer field with value 0 is
skipped and contributes nothing to the stream. -/
theorem bsor_skip_characterization_witness :
    (getattrV (.obj [("Z", Value.int 0)])
        (fname (("Z", 3, Schema.integer false) : FieldDef)) =
      some (Value.int 0) ∧
      shouldSkip (fschema (("Z", 3, Schema.integer false) : FieldDef))
        (Value.int 0) = true) ∧
    write_structure ([] ++ ("Z", 3, Schema.integer false) :: [])
        (.obj [("Z", Value.int 0)]) =
      write_structure ([] ++ []) (.obj [("Z", Value.int 0)]) :=
  ⟨⟨rfl, rfl⟩,
    bsor_skip_characterization.2.2 (.obj [("Z", Value.int 0)])
      ("Z", 3, Schema.integer false) (Value.int 0) [] [] rfl rfl⟩

/-- Counterexample for C1: with a nullable Object (sub-structure) field,
the canonical instance `{A = None}` — exactly what decoding an empty
structure produces — does not survive a round trip: encoding writes the
`None` as an empty sub-structure block (Python `hasattr(None, ...)` is
false for every field name), and decoding that block back-fills the
sub-structure's fields, yielding a zero-filled object instead of
`None`. -/
theorem bsor_roundtrip_counterexample :
    read_structure [("A", 1, Schema.obj [("B", 1, .integer false)] true)]
        [pushInt 0] =
      .ok (.obj [("A", Value.null)], []) ∧
    write_structure [("A", 1, Schema.obj [("B", 1, .integer false)] true)]
        (.obj [("A", Value.null)]) =
      .ok [pushInt 1, pushInt 1, pushInt 0] ∧
    read_structure [("A", 1, Schema.obj [("B", 1, .integer false)] true)]
        [pushInt 1, pushInt 1, pushInt 0] =
      .ok (.obj [("A", .obj [("B", .int 0)])], []) ∧
    Value.obj [("A", .obj [("B", .int 0)])] ≠ .obj [("A", Value.null)] := by
  refine ⟨?_, ?_, ?_, by simp⟩
  · rw [read_structure_cons]
    have h0 : (itemToIntO (pushInt 0).item).toNat = 0 := by
      rw [itemToIntO_pushInt]
      rfl
    rw [h0, read_field_loop_zero]
    simp [backfill, mkInstance, lookupKw, fname, fschema, Schema.nullable]
  · simp [write_structure_eq, write_field_loop, getattrV, lookupKw, fname,
      ffid, fschema, shouldSkip, typeDefault, Schema.wireType, Schema.nullable,
      keepField, write_type, List.filter_cons]
  · have hwf : wfDef [("A", 1, Schema.obj [("B", 1, .integer false)] true)] =
        true := by
      simp [wfDef, wfFieldList, wfS, nodupNat, nodupStr, ffid, fname, fschema]
    have hc : canonicalFields
        [("A", 1, Schema.obj [("B", 1, .integer false)] true)]
        [("A", .obj [("B", .int 0)])] = true := by
      simp [canonicalFields, fieldCanonical, canonicalV.eq_def, Value.isNull,
        fname, fschema]
    obtain ⟨ts, hw, hr⟩ := rt_struct _ _ hwf hc
    have hw2 : write_structure
        [("A", 1, Schema.obj [("B", 1, .integer false)] true)]
        (.obj [("A", .obj [("B", .int 0)])]) =
        .ok [pushInt 1, pushInt 1, pushInt 0] := by
      simp [write_structure_eq, write_field_loop, getattrV, lookupKw, fname,
        ffid, fschema, shouldSkip, typeDefault, Schema.wireType,
        Schema.nullable, keepField, write_type, List.filter_cons,
        valueIsDefault]
    rw [hw] at hw2
    injection hw2 with hts
    subst hts
    have hread := hr []
    rw [List.append_nil] at hread
    exact hread

/-- C1 amended: `loads(dumps(x))` reproduces `x` for canonical instances
over well-formed definitions — pairwise distinct field ids and names,
custom scalars BYTES-wired, fixed-length lists of the declared length,
and, where `x` carries a null, only at nullable fields of the
`TYPE_DEFAULTS` wire types (Integer, String, Bytes), the nulls the
encoder's elision round-trips (list elements may be null at any nullable
item type, carried by presence tokens).  Nullable Float/Double/List
fields holding null fail to encode, and a null Object field re-decodes as
a zero-filled object (see the counterexample), so those are excluded. -/
theorem bsor_roundtrip (fields : List FieldDef) (kvs : List (String × Value))
    (hwf : wfDef fields = true) (hc : canonicalFields fields kvs = true) :
    ∃ ts, dumps fields (.obj kvs) = .ok ts ∧ loads fields ts = .ok (.obj kvs) := by
  obtain ⟨ts, hw, hr⟩ := rt_struct fields kvs hwf hc
  refine ⟨ts, by rw [dumps]; exact hw, ?_⟩
  have hread := hr []
  rw [List.append_nil] at hread
  rw [loads, hread]

/-- Witness for C1 amended: a canonical instance with a zero integer and
a null nullable string round-trips. -/
theorem bsor_roundtrip_witness :
    (wfDef [("IntField", 1, Schema.integer false),
        ("StrField", 2, Schema.string true)] = true ∧
      canonicalFields [("IntField", 1, Schema.integer false),
          ("StrField", 2, Schema.string true)]
        [("IntField", Value.int 0), ("StrField", Value.null)] = true) ∧
    ∃ ts, dumps [("IntField", 1, Schema.integer false),
        ("StrField", 2, Schema.string true)]
        (.obj [("IntField", Value.int 0), ("StrField", Value.null)]) = .ok ts ∧
      loads [("IntField", 1, Schema.integer false),
        ("StrField", 2, Schema.string true)] ts =
        .ok (.obj [("IntField", Value.int 0), ("StrField", Value.null)]) :=
  ⟨⟨by simp [wfDef, wfFieldList, wfS, nodupNat, nodupStr, ffid, fname, fschema],
    by simp [canonicalFields, fieldCanonical, canonicalV.eq_def, Value.isNull,
      fname, fschema, typeDefault, Schema.wireType, Schema.nullable]⟩,
    bsor_roundtrip _ _
      (by simp [wfDef, wfFieldList, wfS, nodupNat, nodupStr, ffid, fname,
        fschema])
      (by simp [canonicalFields, fieldCanonical, canonicalV.eq_def,
        Value.isNull, fname, fschema, typeDefault, Schema.wireType,
        Schema.nullable])⟩
